import Mathlib

/-!
Verification development for the A3D-Manager labels.db container codec,
the cartridge-id checksum computation, and the sync progress stream.

The byte-level code is embedded shallowly: Node `Buffer` values are modelled
by the `Buf` structure (a length together with a total byte function), pixel
buffers handed to the color codec are modelled as `List Nat`, and fallible
operations return `Except String`.  External collaborators (the `sharp`
image codec, the filesystem) are modelled by taking their output as input.
-/

namespace A3D

/-! ## Constants (from the labels.db library) -/

/-- Magic byte at offset 0x00. -/
def MAGIC_BYTE : Nat := 0x07

/-- Identifier string at offset 0x01. -/
def IDENTIFIER : String := "Analogue-Co"

/-- File type string at offset 0x20. -/
def FILE_TYPE : String := "Analogue-3D.labels"

/-- Version number (2.0) stored little-endian at offset 0x40. -/
def VERSION : Nat := 0x00020000

/-- Header size in bytes. -/
def HEADER_SIZE : Nat := 0x100

/-- Start of the cartridge ID table. -/
def ID_TABLE_START : Nat := 0x100

/-- Start of the image data section. -/
def DATA_START : Nat := 0x4100

/-- Image width in pixels. -/
def IMAGE_WIDTH : Nat := 74

/-- Image height in pixels. -/
def IMAGE_HEIGHT : Nat := 86

/-- Bytes per pixel (BGRA). -/
def BYTES_PER_PIXEL : Nat := 4

/-- Actual image data size (74 x 86 x 4 = 25456). -/
def IMAGE_DATA_SIZE : Nat := IMAGE_WIDTH * IMAGE_HEIGHT * BYTES_PER_PIXEL

/-- Total slot size including padding. -/
def IMAGE_SLOT_SIZE : Nat := 25600

/-- Padding at the end of each image slot. -/
def SLOT_PADDING : Nat := IMAGE_SLOT_SIZE - IMAGE_DATA_SIZE

/-- Padding fill value. -/
def PADDING_FILL : Nat := 0xff

/-- Number of 4-byte table slots between ID_TABLE_START and DATA_START. -/
def TABLE_CAPACITY : Nat := (DATA_START - ID_TABLE_START) / 4

theorem IMAGE_DATA_SIZE_eq : IMAGE_DATA_SIZE = 25456 := rfl

theorem TABLE_CAPACITY_eq : TABLE_CAPACITY = 4096 := rfl

/-- Numeric values of the layout constants, for linear arithmetic. -/
theorem constVals : HEADER_SIZE = 256 ∧ ID_TABLE_START = 256 ∧ DATA_START = 16640 ∧
    IMAGE_SLOT_SIZE = 25600 ∧ IMAGE_DATA_SIZE = 25456 ∧ SLOT_PADDING = 144 ∧
    PADDING_FILL = 255 ∧ TABLE_CAPACITY = 4096 := by
  refine ⟨rfl, rfl, rfl, rfl, rfl, rfl, rfl, rfl⟩

/-! ## Byte buffers

A Node `Buffer` is modelled as a length together with a total byte
function.  Reads beyond the length never occur in the modelled code
paths (Node would throw there); writes made by the modelled operations
are all within bounds. -/

/-- Model of a Node byte buffer: a size and a total byte function. -/
structure Buf where
  size : Nat
  get : Nat → Nat

/-- Model of Buffer.alloc: every byte is the fill value. -/
def Buf.alloc (n fill : Nat) : Buf := ⟨n, fun _ => fill⟩

/-- Write a single byte. -/
def Buf.writeByte (b : Buf) (i v : Nat) : Buf :=
  ⟨b.size, fun j => if j = i then v else b.get j⟩

/-- Model of Buffer.writeUInt32LE (little-endian byte split). -/
def Buf.write32 (b : Buf) (off v : Nat) : Buf :=
  ((((b.writeByte off (v % 256)).writeByte (off + 1) (v / 256 % 256)).writeByte
      (off + 2) (v / 65536 % 256)).writeByte (off + 3) (v / 16777216 % 256))

/-- Model of Buffer.readUInt32LE. -/
def Buf.read32 (b : Buf) (off : Nat) : Nat :=
  b.get off + 256 * b.get (off + 1) + 65536 * b.get (off + 2) +
    16777216 * b.get (off + 3)

/-- Number of bytes actually moved by src.copy(dst, dstStart, srcStart, srcEnd)
(Node truncates at both the source and the target end). -/
def Buf.copyLen (src dst : Buf) (dstStart srcStart srcEnd : Nat) : Nat :=
  min (min srcEnd src.size - srcStart) (dst.size - dstStart)

/-- Model of src.copy(dst, dstStart, srcStart, srcEnd). -/
def Buf.copy (src dst : Buf) (dstStart srcStart srcEnd : Nat) : Buf :=
  ⟨dst.size, fun j =>
    if dstStart ≤ j ∧ j < dstStart + Buf.copyLen src dst dstStart srcStart srcEnd then
      src.get (srcStart + (j - dstStart))
    else dst.get j⟩

@[simp] theorem Buf.size_alloc (n fill : Nat) : (Buf.alloc n fill).size = n := rfl

@[simp] theorem Buf.get_alloc (n fill j : Nat) : (Buf.alloc n fill).get j = fill := rfl

@[simp] theorem Buf.size_writeByte (b : Buf) (i v : Nat) :
    (b.writeByte i v).size = b.size := rfl

theorem Buf.get_writeByte (b : Buf) (i v j : Nat) :
    (b.writeByte i v).get j = if j = i then v else b.get j := rfl

@[simp] theorem Buf.size_write32 (b : Buf) (off v : Nat) :
    (b.write32 off v).size = b.size := rfl

@[simp] theorem Buf.size_copy (src dst : Buf) (d s e : Nat) :
    (Buf.copy src dst d s e).size = dst.size := rfl

theorem Buf.get_write32_of_lt (b : Buf) (off v j : Nat) (h : j < off) :
    (b.write32 off v).get j = b.get j := by
  simp only [Buf.write32, Buf.get_writeByte]
  have h0 : ¬ (j = off) := by omega
  have h1 : ¬ (j = off + 1) := by omega
  have h2 : ¬ (j = off + 2) := by omega
  have h3 : ¬ (j = off + 3) := by omega
  simp [h0, h1, h2, h3]

theorem Buf.get_write32_of_ge (b : Buf) (off v j : Nat) (h : off + 4 ≤ j) :
    (b.write32 off v).get j = b.get j := by
  simp only [Buf.write32, Buf.get_writeByte]
  have h0 : ¬ (j = off) := by omega
  have h1 : ¬ (j = off + 1) := by omega
  have h2 : ¬ (j = off + 2) := by omega
  have h3 : ¬ (j = off + 3) := by omega
  simp [h0, h1, h2, h3]

theorem Buf.get_write32_out (b : Buf) (off v j : Nat) (h : j < off ∨ off + 4 ≤ j) :
    (b.write32 off v).get j = b.get j := by
  rcases h with h | h
  · exact Buf.get_write32_of_lt b off v j h
  · exact Buf.get_write32_of_ge b off v j h

theorem Buf.read32_write32_self (b : Buf) (off v : Nat) (hv : v < 4294967296) :
    (b.write32 off v).read32 off = v := by
  simp only [Buf.read32, Buf.write32, Buf.get_writeByte]
  have h01 : ¬ (off = off + 1) := by omega
  have h02 : ¬ (off = off + 2) := by omega
  have h03 : ¬ (off = off + 3) := by omega
  have h12 : ¬ (off + 1 = off + 2) := by omega
  have h13 : ¬ (off + 1 = off + 3) := by omega
  have h23 : ¬ (off + 2 = off + 3) := by omega
  simp only [h01, h02, h03, h12, h13, h23, if_false, if_pos rfl, ite_false, ite_true,
    if_neg, reduceIte]
  omega

theorem Buf.read32_write32_out (b : Buf) (off v off' : Nat)
    (h : off' + 4 ≤ off ∨ off + 4 ≤ off') :
    (b.write32 off v).read32 off' = b.read32 off' := by
  simp only [Buf.read32]
  rw [Buf.get_write32_out b off v off' (by omega),
    Buf.get_write32_out b off v (off' + 1) (by omega),
    Buf.get_write32_out b off v (off' + 2) (by omega),
    Buf.get_write32_out b off v (off' + 3) (by omega)]

theorem Buf.get_copy_of_lt (src dst : Buf) (d s e j : Nat) (h : j < d) :
    (Buf.copy src dst d s e).get j = dst.get j := by
  simp only [Buf.copy]
  have : ¬ (d ≤ j ∧ j < d + Buf.copyLen src dst d s e) := by omega
  simp [this]

theorem Buf.get_copy_of_ge (src dst : Buf) (d s e j : Nat)
    (h : d + Buf.copyLen src dst d s e ≤ j) :
    (Buf.copy src dst d s e).get j = dst.get j := by
  simp only [Buf.copy]
  have : ¬ (d ≤ j ∧ j < d + Buf.copyLen src dst d s e) := by omega
  simp [this]

theorem Buf.get_copy_of_mem (src dst : Buf) (d s e j : Nat)
    (h1 : d ≤ j) (h2 : j < d + Buf.copyLen src dst d s e) :
    (Buf.copy src dst d s e).get j = src.get (s + (j - d)) := by
  simp only [Buf.copy]
  simp [h1, h2]

/-! ## Color codec

The source converts between BGRA (store order) and RGBA (display order)
with two loops of identical structure.  Pixel buffers are `List Nat`
(byte lists); out-of-range reads yield 0 and out-of-range writes are
dropped, exactly as for a Node `Buffer` used as a `Uint8Array`.  The JS
loop guard is `i < pixelCount` with `pixelCount = length / 4` computed in
floating point, which for an integer `i` is equivalent to `4 * i < length`. -/

/-- Shared red/blue channel-swap loop of bgraToRgba and rgbaToBgra:
dst gets src byte 2 at offset 0, byte 1 at 1, byte 0 at 2, byte 3 at 3
within every 4-byte pixel group. -/
def swapRB (src : List Nat) (dst : List Nat) (i : Nat) : List Nat :=
  if _h : 4 * i < src.length then
    let o := 4 * i
    let d0 := dst.set (o + 0) (src.getD (o + 2) 0)
    let d1 := d0.set (o + 1) (src.getD (o + 1) 0)
    let d2 := d1.set (o + 2) (src.getD (o + 0) 0)
    let d3 := d2.set (o + 3) (src.getD (o + 3) 0)
    swapRB src d3 (i + 1)
  else dst
termination_by src.length - 4 * i
decreasing_by omega

/-- Convert a BGRA buffer to a RGBA buffer (store order to display order). -/
def bgraToRgba (bgra : List Nat) : List Nat :=
  swapRB bgra (List.replicate bgra.length 0) 0

/-- Convert a RGBA buffer to a BGRA buffer (display order to store order);
the byte permutation is identical to bgraToRgba. -/
def rgbaToBgra (rgba : List Nat) : List Nat :=
  swapRB rgba (List.replicate rgba.length 0) 0

theorem getD_set_ne (l : List Nat) (i v j : Nat) (h : j ≠ i) :
    (l.set i v).getD j 0 = l.getD j 0 := by
  rw [List.getD_eq_getElem?_getD, List.getD_eq_getElem?_getD,
    List.getElem?_set_ne (Ne.symm h)]

theorem getD_set_self (l : List Nat) (i v : Nat) (h : i < l.length) :
    (l.set i v).getD i 0 = v := by
  rw [List.getD_eq_getElem?_getD, List.getElem?_set_eq_of_lt v h]
  rfl

theorem swapRB_length_aux (src : List Nat) (n : Nat) :
    ∀ (i : Nat) (dst : List Nat), src.length ≤ 4 * i + n →
      (swapRB src dst i).length = dst.length := by
  induction n with
  | zero =>
    intro i dst h
    rw [swapRB, dif_neg (by omega)]
  | succ n ih =>
    intro i dst h
    by_cases hc : 4 * i < src.length
    · rw [swapRB, dif_pos hc]
      rw [ih (i + 1) _ (by omega)]
      simp [List.length_set]
    · rw [swapRB, dif_neg hc]

theorem swapRB_length (src dst : List Nat) (i : Nat) :
    (swapRB src dst i).length = dst.length :=
  swapRB_length_aux src src.length i dst (by omega)

@[simp] theorem bgraToRgba_length (bgra : List Nat) :
    (bgraToRgba bgra).length = bgra.length := by
  simp [bgraToRgba, swapRB_length]

@[simp] theorem rgbaToBgra_length (rgba : List Nat) :
    (rgbaToBgra rgba).length = rgba.length := by
  simp [rgbaToBgra, swapRB_length]

/-- Position of the byte that lands at position j after the red/blue swap. -/
def swapIdx (j : Nat) : Nat :=
  if j % 4 = 0 then j + 2 else if j % 4 = 2 then j - 2 else j

theorem swapIdx_involutive (j : Nat) : swapIdx (swapIdx j) = j := by
  unfold swapIdx
  have h4 : j % 4 = 0 ∨ j % 4 = 1 ∨ j % 4 = 2 ∨ j % 4 = 3 := by omega
  rcases h4 with h | h | h | h
  · have h2 : (j + 2) % 4 = 2 := by omega
    simp [h, h2]
  · simp [h]
  · have h2 : (j - 2) % 4 = 0 := by omega
    have h3 : j - 2 + 2 = j := by omega
    simp [h, h2, h3]
  · simp [h]

theorem swapRB_getD_lt_aux (src : List Nat) (n : Nat) :
    ∀ (i : Nat) (dst : List Nat) (j : Nat), src.length ≤ 4 * i + n → j < 4 * i →
      (swapRB src dst i).getD j 0 = dst.getD j 0 := by
  induction n with
  | zero =>
    intro i dst j h hj
    rw [swapRB, dif_neg (by omega)]
  | succ n ih =>
    intro i dst j h hj
    by_cases hc : 4 * i < src.length
    · rw [swapRB, dif_pos hc]
      rw [ih (i + 1) _ j (by omega) (by omega)]
      rw [getD_set_ne _ _ _ _ (by omega), getD_set_ne _ _ _ _ (by omega),
        getD_set_ne _ _ _ _ (by omega), getD_set_ne _ _ _ _ (by omega)]
    · rw [swapRB, dif_neg hc]

theorem swapRB_getD_lt (src dst : List Nat) (i j : Nat) (hj : j < 4 * i) :
    (swapRB src dst i).getD j 0 = dst.getD j 0 :=
  swapRB_getD_lt_aux src src.length i dst j (by omega) hj

theorem swapRB_getD_aux (src : List Nat) (n : Nat) :
    ∀ (i : Nat) (dst : List Nat) (j : Nat),
      src.length ≤ 4 * i + n →
      src.length ≤ dst.length → src.length % 4 = 0 →
      j < src.length → 4 * i ≤ j →
      (swapRB src dst i).getD j 0 = src.getD (swapIdx j) 0 := by
  induction n with
  | zero =>
    intro i dst j h _ _ hj hij
    omega
  | succ n ih =>
    intro i dst j h hlen hmod hj hij
    have hc : 4 * i < src.length := by omega
    rw [swapRB, dif_pos hc]
    by_cases hcur : j < 4 * (i + 1)
    · -- j lies inside the pixel group handled by this iteration
      have hblock : 4 * i + 4 ≤ src.length := by omega
      rw [swapRB_getD_lt src _ (i + 1) j hcur]
      have hl0 : (dst.set (4 * i + 0) (src.getD (4 * i + 2) 0)).length = dst.length :=
        List.length_set ..
      have hl1 : ((dst.set (4 * i + 0) (src.getD (4 * i + 2) 0)).set (4 * i + 1)
          (src.getD (4 * i + 1) 0)).length = dst.length := by
        rw [List.length_set, hl0]
      have hl2 : (((dst.set (4 * i + 0) (src.getD (4 * i + 2) 0)).set (4 * i + 1)
          (src.getD (4 * i + 1) 0)).set (4 * i + 2) (src.getD (4 * i + 0) 0)).length
          = dst.length := by
        rw [List.length_set, hl1]
      have hj0 : j = 4 * i ∨ j = 4 * i + 1 ∨ j = 4 * i + 2 ∨ j = 4 * i + 3 := by
        omega
      rcases hj0 with rfl | rfl | rfl | rfl
      · have hsw : swapIdx (4 * i) = 4 * i + 2 := by
          unfold swapIdx
          simp [Nat.mul_mod_right]
        rw [hsw]
        rw [getD_set_ne _ _ _ _ (by omega), getD_set_ne _ _ _ _ (by omega),
          getD_set_ne _ _ _ _ (by omega)]
        exact getD_set_self _ _ _ (by omega)
      · have hsw : swapIdx (4 * i + 1) = 4 * i + 1 := by
          unfold swapIdx
          have m1 : (4 * i + 1) % 4 = 1 := by omega
          simp [m1]
        rw [hsw]
        rw [getD_set_ne _ _ _ _ (by omega), getD_set_ne _ _ _ _ (by omega)]
        exact getD_set_self _ _ _ (by rw [hl0]; omega)
      · have hsw : swapIdx (4 * i + 2) = 4 * i := by
          unfold swapIdx
          have m2 : (4 * i + 2) % 4 = 2 := by omega
          simp [m2]
        rw [hsw]
        rw [getD_set_ne _ _ _ _ (by omega)]
        exact getD_set_self _ _ _ (by rw [hl1]; omega)
      · have hsw : swapIdx (4 * i + 3) = 4 * i + 3 := by
          unfold swapIdx
          have m3 : (4 * i + 3) % 4 = 3 := by omega
          simp [m3]
        rw [hsw]
        exact getD_set_self _ _ _ (by rw [hl2]; omega)
    · refine ih (i + 1) _ j (by omega) ?_ hmod hj (by omega)
      simp only [List.length_set]
      exact hlen

theorem swapRB_getD (src dst : List Nat) (i j : Nat)
    (hlen : src.length ≤ dst.length) (hmod : src.length % 4 = 0)
    (hj : j < src.length) (hij : 4 * i ≤ j) :
    (swapRB src dst i).getD j 0 = src.getD (swapIdx j) 0 :=
  swapRB_getD_aux src src.length i dst j (by omega) hlen hmod hj hij

theorem swapIdx_lt (i len : Nat) (hi : i < len) (hmod : len % 4 = 0) :
    swapIdx i < len := by
  unfold swapIdx
  split
  · omega
  · split <;> omega

theorem getD_eq_getElem_of_lt (l : List Nat) (i : Nat) (h : i < l.length) :
    l.getD i 0 = l[i] := by
  rw [List.getD_eq_getElem?_getD, List.getElem?_eq_getElem h]
  rfl

theorem rgba_roundtrip (x : List Nat) (h : x.length % 4 = 0) :
    rgbaToBgra (bgraToRgba x) = x := by
  have hylen : (bgraToRgba x).length = x.length := bgraToRgba_length x
  have hlen : (rgbaToBgra (bgraToRgba x)).length = x.length := by
    rw [rgbaToBgra_length, hylen]
  apply List.ext_getElem hlen
  intro i h1 h2
  rw [← getD_eq_getElem_of_lt _ _ h1, ← getD_eq_getElem_of_lt _ _ h2]
  have hi : i < x.length := h2
  rw [rgbaToBgra]
  rw [swapRB_getD (bgraToRgba x) _ 0 i (by simp [hylen]) (by rw [hylen]; exact h)
    (by omega) (by omega)]
  have hsw : swapIdx i < x.length := swapIdx_lt i x.length hi h
  rw [bgraToRgba]
  rw [swapRB_getD x _ 0 (swapIdx i) (by simp) h (by omega) (by omega)]
  rw [swapIdx_involutive]

/-! ## Ascii strings and hex rendering helpers -/

/-- Byte values of an ascii string (as written by Buffer.write with the
ascii encoding). -/
def asciiBytes (str : String) : List Nat := str.toList.map Char.toNat

/-- Bytes read back through toString with the ascii encoding, which masks
the high bit of every byte. -/
def readAscii (b : Buf) (off n : Nat) : List Nat :=
  (List.range n).map (fun k => b.get (off + k) % 128)

/-- Lowercase hex digit, as produced by a JS number toString(16). -/
def hexDigit (d : Nat) : Char :=
  if d < 10 then Char.ofNat (48 + d) else Char.ofNat (87 + d)

/-- Digits of n in base 16, most significant first (JS toString(16)). -/
def hexChars (n : Nat) : List Char :=
  if _h : n < 16 then [hexDigit n]
  else hexChars (n / 16) ++ [hexDigit (n % 16)]
termination_by n
decreasing_by omega

/-- Model of value.toString(16).padStart(8, the zero digit). -/
def hex8 (n : Nat) : String :=
  String.mk (List.replicate (8 - (hexChars n).length) (Char.ofNat 48) ++ hexChars n)

/-! ## Header operations -/

/-- Write a list of byte values at consecutive offsets (Buffer.write with
the ascii encoding, for strings that fit in the buffer). -/
def Buf.writeBytes : Buf → Nat → List Nat → Buf
  | b, _, [] => b
  | b, off, v :: rest => Buf.writeBytes (b.writeByte off v) (off + 1) rest

/-- Create a valid labels.db header. -/
def createHeader : Buf :=
  let h0 := Buf.alloc HEADER_SIZE 0x00
  let h1 := h0.writeByte 0 MAGIC_BYTE
  let h2 := Buf.writeBytes h1 1 (asciiBytes IDENTIFIER)
  let h3 := Buf.writeBytes h2 0x20 (asciiBytes FILE_TYPE)
  h3.write32 0x40 VERSION

/-- Verify that a labels.db header is valid.  The source returns a record
with a valid flag and an optional error string; this is modelled as
Except String Unit. -/
def verifyHeader (data : Buf) : Except String Unit :=
  if data.size < HEADER_SIZE then
    Except.error "File too small"
  else if data.get 0 ≠ MAGIC_BYTE then
    Except.error "Invalid magic byte"
  else if readAscii data 1 11 ≠ asciiBytes IDENTIFIER then
    Except.error "Invalid identifier"
  else if readAscii data 0x20 FILE_TYPE.length ≠ asciiBytes FILE_TYPE then
    Except.error "Invalid file type"
  else
    Except.ok ()

/-! ## Parsing -/

/-- A single entry in the labels database. -/
structure LabelEntry where
  cartId : Nat
  cartIdHex : String
  index : Nat
  imageOffset : Nat
deriving DecidableEq

/-- Parsed labels.db structure.  The JS Map from cartridge id to index is
modelled as an association list with JS Map set semantics. -/
structure LabelsDatabase where
  entryCount : Nat
  entries : List LabelEntry
  idToIndex : List (Nat × Nat)
deriving DecidableEq

/-- JS Map.set: overwrite the value of an existing key, else append. -/
def mapSet (m : List (Nat × Nat)) (k v : Nat) : List (Nat × Nat) :=
  if m.any (fun p => p.1 == k) then
    m.map (fun p => if p.1 == k then (k, v) else p)
  else m ++ [(k, v)]

/-- JS Map.get. -/
def mapGet (m : List (Nat × Nat)) (k : Nat) : Option Nat :=
  (m.find? (fun p => p.1 == k)).map (fun p => p.2)

/-- JS Map.has. -/
def mapHas (m : List (Nat × Nat)) (k : Nat) : Bool :=
  m.any (fun p => p.1 == k)

/-- The ID-table reading loop of parseLabelsDb: reads consecutive table
slots, stopping at the first all-ones fill value, pushing entries and
registering the id-to-index mapping. -/
def parseLoop (data : Buf) :
    Nat → Nat → List LabelEntry → List (Nat × Nat) →
      List LabelEntry × List (Nat × Nat)
  | _, 0, es, m => (es, m)
  | i, fuel + 1, es, m =>
    let cartId := data.read32 (ID_TABLE_START + i * 4)
    if cartId = 0xffffffff then (es, m)
    else
      parseLoop data (i + 1) fuel
        (es ++ [⟨cartId, hex8 cartId, i, DATA_START + i * IMAGE_SLOT_SIZE⟩])
        (mapSet m cartId i)

/-- Parse a labels.db buffer and return its structure.  The source throws
on an invalid header and on a buffer shorter than the data-section start
(there the signed quantity length - DATA_START is negative). -/
def parseLabelsDb (data : Buf) : Except String LabelsDatabase :=
  match verifyHeader data with
  | Except.error err => Except.error ("Invalid labels.db: " ++ err)
  | Except.ok _ =>
    if data.size < DATA_START then
      Except.error "File smaller than data section start"
    else
      let entryCount := (data.size - DATA_START) / IMAGE_SLOT_SIZE
      let r := parseLoop data 0 entryCount [] []
      Except.ok ⟨r.1.length, r.1, r.2⟩

/-! ## Creation operations -/

/-- Create an empty labels.db with no entries: a DATA_START sized buffer
filled with PADDING_FILL whose header region is overwritten by
createHeader. -/
def createEmptyLabelsDb : Buf :=
  Buf.copy createHeader (Buf.alloc DATA_START PADDING_FILL) 0 0 createHeader.size

/-- View a byte list as a buffer. -/
def bufOfList (l : List Nat) : Buf := ⟨l.length, fun i => l.getD i 0⟩

/-- Prepare an image for storage: the external sharp resize step is
modelled by taking its raw RGBA output as the input; the length check and
the RGBA to BGRA conversion are the modelled source logic. -/
def prepareImageForStorage (rgba : List Nat) : Except String Buf :=
  if rgba.length ≠ IMAGE_DATA_SIZE then
    Except.error "Unexpected image size"
  else
    Except.ok (bufOfList (rgbaToBgra rgba))

/-- Create a complete image slot with BGRA data and padding. -/
def createImageSlot (bgraData : Buf) : Except String Buf :=
  if bgraData.size ≠ IMAGE_DATA_SIZE then
    Except.error "Invalid BGRA data size"
  else
    Except.ok (Buf.copy bgraData (Buf.alloc IMAGE_SLOT_SIZE PADDING_FILL) 0 0 bgraData.size)

/-! ## Modification operations -/

/-- Model of Buffer.from(data) (a fresh copy of the whole buffer). -/
def Buf.clone (b : Buf) : Buf := ⟨b.size, b.get⟩

/-- Update the image of an existing entry; the result is a new buffer. -/
def updateEntry (data : Buf) (cartId : Nat) (rgba : List Nat) : Except String Buf :=
  match parseLabelsDb data with
  | Except.error e => Except.error e
  | Except.ok db =>
    match mapGet db.idToIndex cartId with
    | none => Except.error "Cartridge ID not found"
    | some index =>
      let newData := Buf.clone data
      match prepareImageForStorage rgba with
      | Except.error e => Except.error e
      | Except.ok bgraData =>
        match createImageSlot bgraData with
        | Except.error e => Except.error e
        | Except.ok slot =>
          Except.ok (Buf.copy slot newData (DATA_START + index * IMAGE_SLOT_SIZE) 0 slot.size)

/-- The insertion-point scan of addEntry: the first position whose entry
has a cartId above the new one, else the entry count. -/
def findInsertIndex : List LabelEntry → Nat → Nat → Nat
  | [], _, i => i
  | e :: rest, cartId, i =>
    if e.cartId > cartId then i else findInsertIndex rest cartId (i + 1)

/-- The ID-table writing loop of addEntry and deleteEntry: write the given
ids into consecutive table slots starting at the given position. -/
def writeTable : Buf → Nat → List Nat → Buf
  | b, _, [] => b
  | b, pos, c :: rest => writeTable (b.write32 (ID_TABLE_START + pos * 4) c) (pos + 1) rest

/-- The image-copy loops of addEntry and deleteEntry: copy n slots from
consecutive source slots (starting at s) to consecutive destination slots
(starting at d). -/
def copySlots (src : Buf) : Buf → Nat → Nat → Nat → Buf
  | dst, _, _, 0 => dst
  | dst, s, d, n + 1 =>
    copySlots src
      (Buf.copy src dst (DATA_START + d * IMAGE_SLOT_SIZE)
        (DATA_START + s * IMAGE_SLOT_SIZE)
        (DATA_START + s * IMAGE_SLOT_SIZE + IMAGE_SLOT_SIZE))
      (s + 1) (d + 1) n

/-- The buffer built by a successful addEntry: fresh fill-allocated buffer,
header copied, table rebuilt with the new id spliced in at insertIndex,
image slots copied around the new slot. -/
def addBuild (data : Buf) (ids : List Nat) (insertIndex cartId : Nat) (slot : Buf) : Buf :=
  let b0 := Buf.alloc (data.size + IMAGE_SLOT_SIZE) PADDING_FILL
  let b1 := Buf.copy data b0 0 0 HEADER_SIZE
  let b2 := writeTable b1 0 (ids.take insertIndex)
  let b3 := b2.write32 (ID_TABLE_START + insertIndex * 4) cartId
  let b4 := writeTable b3 (insertIndex + 1) (ids.drop insertIndex)
  let b5 := copySlots data b4 0 0 insertIndex
  let b6 := Buf.copy slot b5 (DATA_START + insertIndex * IMAGE_SLOT_SIZE) 0 slot.size
  copySlots data b6 insertIndex (insertIndex + 1) (ids.length - insertIndex)

/-- Add a new entry.  The explicit range check on the new cartId mirrors
the RangeError thrown by Buffer.writeUInt32LE for values above 2^32 - 1
(the ids rewritten from the parsed table are below that bound already). -/
def addEntry (data : Buf) (cartId : Nat) (rgba : List Nat) : Except String Buf :=
  match parseLabelsDb data with
  | Except.error e => Except.error e
  | Except.ok db =>
    if mapHas db.idToIndex cartId then
      Except.error "Cartridge ID already exists"
    else if 4294967295 < cartId then
      Except.error "Value out of range"
    else
      let insertIndex := findInsertIndex db.entries cartId 0
      match prepareImageForStorage rgba with
      | Except.error e => Except.error e
      | Except.ok bgraData =>
        match createImageSlot bgraData with
        | Except.error e => Except.error e
        | Except.ok slot =>
          Except.ok (addBuild data (db.entries.map LabelEntry.cartId) insertIndex cartId slot)

/-- The buffer built by a successful deleteEntry: fresh fill-allocated
smaller buffer, header copied, table rebuilt without the deleted id,
image slots compacted. -/
def deleteBuild (data : Buf) (ids : List Nat) (index : Nat) : Buf :=
  let b0 := Buf.alloc (data.size - IMAGE_SLOT_SIZE) PADDING_FILL
  let b1 := Buf.copy data b0 0 0 HEADER_SIZE
  let b2 := writeTable b1 0 (ids.eraseIdx index)
  let b3 := copySlots data b2 0 0 index
  copySlots data b3 (index + 1) index (ids.length - 1 - index)

/-- Delete an entry. -/
def deleteEntry (data : Buf) (cartId : Nat) : Except String Buf :=
  match parseLabelsDb data with
  | Except.error e => Except.error e
  | Except.ok db =>
    match mapGet db.idToIndex cartId with
    | none => Except.error "Cartridge ID not found"
    | some index =>
      Except.ok (deleteBuild data (db.entries.map LabelEntry.cartId) index)

/-! ## Operation sequences -/

/-- A mutation of the container: an addEntry or a deleteEntry call. -/
inductive LabelsOp where
  | add (cartId : Nat) (rgba : List Nat)
  | del (cartId : Nat)

/-- Apply one operation. -/
def applyOp (b : Buf) : LabelsOp → Except String Buf
  | LabelsOp.add c img => addEntry b c img
  | LabelsOp.del c => deleteEntry b c

/-- Apply a sequence of operations, all of which must succeed. -/
def applyOps : Buf → List LabelsOp → Except String Buf
  | b, [] => Except.ok b
  | b, op :: rest =>
    match applyOp b op with
    | Except.error e => Except.error e
    | Except.ok b2 => applyOps b2 rest

/-- Number of image slots implied by the buffer size (the loop bound that
parseLabelsDb computes as entryCount before the early-stop scan). -/
def slotCount (b : Buf) : Nat := (b.size - DATA_START) / IMAGE_SLOT_SIZE

/-! ## Parse characterization -/

/-- Value of ID-table slot i. -/
def tableVal (b : Buf) (i : Nat) : Nat := b.read32 (ID_TABLE_START + i * 4)

/-- The entry parseLabelsDb builds for table position j. -/
def entryOfTable (b : Buf) (j : Nat) : LabelEntry :=
  ⟨tableVal b j, hex8 (tableVal b j), j, DATA_START + j * IMAGE_SLOT_SIZE⟩

/-- The first k entries of the table, as parseLabelsDb builds them. -/
def entriesOfTable (b : Buf) (k : Nat) : List LabelEntry :=
  (List.range k).map (entryOfTable b)

/-- The id-to-index map parseLabelsDb builds for the first k table slots. -/
def mapOfTable (b : Buf) (k : Nat) : List (Nat × Nat) :=
  (List.range k).foldl (fun acc j => mapSet acc (tableVal b j) j) []

theorem parseLoop_char (data : Buf) :
    ∀ (k i fuel : Nat) (es : List LabelEntry) (m : List (Nat × Nat)),
      k ≤ fuel →
      (∀ j, j < k → tableVal data (i + j) ≠ 0xffffffff) →
      (k < fuel → tableVal data (i + k) = 0xffffffff) →
      parseLoop data i fuel es m =
        (es ++ (List.range k).map (fun j => entryOfTable data (i + j)),
         (List.range k).foldl (fun acc j => mapSet acc (tableVal data (i + j)) (i + j)) m) := by
  intro k
  induction k with
  | zero =>
    intro i fuel es m hk hlive hterm
    cases fuel with
    | zero => simp [parseLoop]
    | succ fuel =>
      have hstop : data.read32 (ID_TABLE_START + i * 4) = 0xffffffff := by
        have := hterm (by omega)
        simpa [tableVal] using this
      rw [parseLoop]
      simp [hstop]
  | succ k ih =>
    intro i fuel es m hk hlive hterm
    cases fuel with
    | zero => omega
    | succ fuel =>
      have h0 : ¬ (data.read32 (ID_TABLE_START + i * 4) = 0xffffffff) := by
        have := hlive 0 (by omega)
        simpa [tableVal] using this
      rw [parseLoop]
      simp only [h0, if_false, ite_false, if_neg, not_false_iff, reduceIte]
      rw [ih (i + 1) fuel _ _ (by omega)
        (fun j hj => by
          have := hlive (j + 1) (by omega)
          simpa [Nat.add_assoc, Nat.add_comm 1 j] using this)
        (fun hlt => by
          have := hterm (by omega)
          simpa [Nat.add_assoc, Nat.add_comm 1 k] using this)]
      simp only [Prod.mk.injEq]
      refine ⟨?_, ?_⟩
      · rw [List.append_assoc, List.singleton_append, List.range_succ_eq_map,
          List.map_cons, List.map_map]
        have eshift : ∀ a : Nat, i + 1 + a = i + (a + 1) := fun a => by omega
        simp [entryOfTable, tableVal, eshift]
      · rw [List.range_succ_eq_map, List.foldl_cons, List.foldl_map]
        have eshift : ∀ a : Nat, i + 1 + a = i + (a + 1) := fun a => by omega
        have e0 : mapSet m (data.read32 (ID_TABLE_START + i * 4)) i
            = mapSet m (tableVal data (i + 0)) (i + 0) := by
          simp [tableVal]
        rw [e0]
        congr 1
        funext acc j
        simp [Nat.succ_eq_add_one, eshift]

theorem parseLabelsDb_char (data : Buf) (k : Nat)
    (hver : verifyHeader data = Except.ok ())
    (hsize : DATA_START ≤ data.size)
    (hk : k ≤ slotCount data)
    (hlive : ∀ j, j < k → tableVal data j ≠ 0xffffffff)
    (hterm : k < slotCount data → tableVal data k = 0xffffffff) :
    parseLabelsDb data =
      Except.ok ⟨k, entriesOfTable data k, mapOfTable data k⟩ := by
  have hc := parseLoop_char data k 0 (slotCount data) [] []
    hk (fun j hj => by simpa using hlive j hj) (fun hlt => by simpa using hterm hlt)
  simp only [parseLabelsDb, hver]
  rw [if_neg (by omega)]
  rw [show (data.size - DATA_START) / IMAGE_SLOT_SIZE = slotCount data from rfl, hc]
  simp only [List.nil_append, Except.ok.injEq, LabelsDatabase.mk.injEq]
  refine ⟨?_, ?_, ?_⟩ <;> simp [entriesOfTable, mapOfTable, Nat.zero_add]

/-! ## Map lemmas -/

theorem mem_mapSet (m : List (Nat × Nat)) (c v : Nat) (p : Nat × Nat)
    (hp : p ∈ mapSet m c v) : p ∈ m ∨ p = (c, v) := by
  unfold mapSet at hp
  split at hp
  · rcases List.mem_map.mp hp with ⟨q, hq, hqe⟩
    by_cases hb : (q.1 == c) = true
    · rw [if_pos hb] at hqe
      exact Or.inr hqe.symm
    · rw [if_neg hb] at hqe
      rw [← hqe]
      exact Or.inl hq
  · rcases List.mem_append.mp hp with h | h
    · exact Or.inl h
    · right
      simpa using h

theorem mapHas_mapSet_self (m : List (Nat × Nat)) (c v : Nat) :
    mapHas (mapSet m c v) c = true := by
  unfold mapHas mapSet
  split
  · rename_i hany
    rcases List.any_eq_true.mp hany with ⟨q, hq, hqc⟩
    apply List.any_eq_true.mpr
    refine ⟨(c, v), ?_, by simp⟩
    apply List.mem_map.mpr
    exact ⟨q, hq, by rw [if_pos hqc]⟩
  · apply List.any_eq_true.mpr
    exact ⟨(c, v), by simp, by simp⟩

theorem mapHas_mapSet_mono (m : List (Nat × Nat)) (c c2 v : Nat)
    (h : mapHas m c = true) : mapHas (mapSet m c2 v) c = true := by
  rcases List.any_eq_true.mp h with ⟨q, hq, hqc⟩
  unfold mapSet
  split
  · apply List.any_eq_true.mpr
    by_cases hb : q.1 == c2
    · refine ⟨(c2, v), List.mem_map.mpr ⟨q, hq, by rw [if_pos hb]⟩, ?_⟩
      simp only [beq_iff_eq] at hqc hb ⊢
      omega
    · exact ⟨q, List.mem_map.mpr ⟨q, hq, by rw [if_neg hb]⟩, hqc⟩
  · exact List.any_eq_true.mpr ⟨q, List.mem_append_left _ hq, hqc⟩

theorem mapHas_eq_isSome (m : List (Nat × Nat)) (c : Nat) :
    mapHas m c = (mapGet m c).isSome := by
  induction m with
  | nil => rfl
  | cons p rest ih =>
    unfold mapHas mapGet
    by_cases hb : p.1 == c
    · simp [List.any_cons, List.find?_cons, hb]
    · simp only [List.any_cons, List.find?_cons, hb]
      simpa [mapHas, mapGet] using ih

theorem mapGet_mem (m : List (Nat × Nat)) (c i : Nat)
    (h : mapGet m c = some i) : (c, i) ∈ m := by
  unfold mapGet at h
  rcases Option.map_eq_some'.mp h with ⟨q, hq, hqe⟩
  have hmem := List.mem_of_find?_eq_some hq
  have hpred := List.find?_some hq
  simp only [beq_iff_eq] at hpred
  have : q = (c, i) := by
    cases q
    simp_all
  rw [← this]
  exact hmem

theorem mapOfTable_zero (b : Buf) : mapOfTable b 0 = [] := rfl

theorem mapOfTable_succ (b : Buf) (k : Nat) :
    mapOfTable b (k + 1) = mapSet (mapOfTable b k) (tableVal b k) k := by
  unfold mapOfTable
  rw [List.range_succ, List.foldl_append]
  rfl

theorem mapOfTable_mem (b : Buf) (k : Nat) (p : Nat × Nat)
    (hp : p ∈ mapOfTable b k) : p.2 < k ∧ tableVal b p.2 = p.1 := by
  induction k with
  | zero =>
    rw [mapOfTable_zero] at hp
    cases hp
  | succ k ih =>
    rw [mapOfTable_succ] at hp
    rcases mem_mapSet _ _ _ _ hp with h | h
    · have := ih h
      exact ⟨by omega, this.2⟩
    · rw [h]
      exact ⟨by omega, rfl⟩

theorem mapOfTable_has (b : Buf) (k j : Nat) (hj : j < k) :
    mapHas (mapOfTable b k) (tableVal b j) = true := by
  induction k with
  | zero => omega
  | succ k ih =>
    rw [mapOfTable_succ]
    by_cases hjk : j < k
    · exact mapHas_mapSet_mono _ _ _ _ (ih hjk)
    · have : j = k := by omega
      rw [this]
      exact mapHas_mapSet_self _ _ _

theorem mapGet_mapOfTable_some (b : Buf) (k c i : Nat)
    (h : mapGet (mapOfTable b k) c = some i) : i < k ∧ tableVal b i = c := by
  have := mapOfTable_mem b k (c, i) (mapGet_mem _ _ _ h)
  exact this

theorem mapGet_mapOfTable_isSome (b : Buf) (k c : Nat) :
    (mapGet (mapOfTable b k) c).isSome = true ↔ ∃ j, j < k ∧ tableVal b j = c := by
  constructor
  · intro h
    rcases Option.isSome_iff_exists.mp h with ⟨i, hi⟩
    have := mapGet_mapOfTable_some b k c i hi
    exact ⟨i, this⟩
  · intro ⟨j, hj, hv⟩
    rw [← mapHas_eq_isSome, ← hv]
    exact mapOfTable_has b k j hj

/-! ## Header lemmas -/

theorem createHeader_size : createHeader.size = HEADER_SIZE := rfl

theorem verifyHeader_ok_iff (b : Buf) :
    verifyHeader b = Except.ok () ↔
      HEADER_SIZE ≤ b.size ∧ b.get 0 = MAGIC_BYTE ∧
      readAscii b 1 11 = asciiBytes IDENTIFIER ∧
      readAscii b 0x20 FILE_TYPE.length = asciiBytes FILE_TYPE := by
  unfold verifyHeader
  split_ifs with h1 h2 h3 h4 <;> simp_all

theorem readAscii_congr (b b2 : Buf) (off n : Nat) (hn : off + n ≤ HEADER_SIZE)
    (hh : ∀ j, j < HEADER_SIZE → b2.get j = b.get j) :
    readAscii b2 off n = readAscii b off n := by
  unfold readAscii
  apply List.map_congr_left
  intro a ha
  rw [hh]
  have := List.mem_range.mp ha
  omega

theorem verifyHeader_of_header_eq (b : Buf) (hsz : HEADER_SIZE ≤ b.size)
    (hh : ∀ j, j < HEADER_SIZE → b.get j = createHeader.get j) :
    verifyHeader b = Except.ok () := by
  rw [verifyHeader_ok_iff]
  refine ⟨hsz, ?_, ?_, ?_⟩
  · rw [hh 0 (by decide)]
    decide
  · rw [readAscii_congr createHeader b 1 11 (by decide) hh]
    decide
  · rw [readAscii_congr createHeader b 0x20 FILE_TYPE.length (by decide) hh]
    decide

theorem createEmptyLabelsDb_size : createEmptyLabelsDb.size = DATA_START := rfl

theorem createEmpty_get_header (j : Nat) (hj : j < HEADER_SIZE) :
    createEmptyLabelsDb.get j = createHeader.get j := by
  unfold createEmptyLabelsDb
  have hlen : Buf.copyLen createHeader (Buf.alloc DATA_START PADDING_FILL)
      0 0 createHeader.size = 256 := rfl
  have hc := constVals
  rw [Buf.get_copy_of_mem _ _ _ _ _ _ (by omega) (by rw [hlen]; omega)]
  simp

theorem createEmpty_get_fill (j : Nat) (h1 : HEADER_SIZE ≤ j) :
    createEmptyLabelsDb.get j = PADDING_FILL := by
  unfold createEmptyLabelsDb
  have hlen : Buf.copyLen createHeader (Buf.alloc DATA_START PADDING_FILL)
      0 0 createHeader.size = 256 := rfl
  rw [Buf.get_copy_of_ge _ _ _ _ _ _ (by rw [hlen]; exact h1)]
  rfl

theorem verifyHeader_createEmpty : verifyHeader createEmptyLabelsDb = Except.ok () :=
  verifyHeader_of_header_eq _ (by rw [createEmptyLabelsDb_size]; decide)
    createEmpty_get_header

theorem slotCount_createEmpty : slotCount createEmptyLabelsDb = 0 := rfl

theorem parse_createEmpty :
    parseLabelsDb createEmptyLabelsDb = Except.ok ⟨0, [], []⟩ := by
  have h := parseLabelsDb_char createEmptyLabelsDb 0 verifyHeader_createEmpty
    (by rw [createEmptyLabelsDb_size]) (Nat.zero_le _)
    (fun j hj => by omega)
    (by rw [slotCount_createEmpty]; omega)
  simpa [entriesOfTable, mapOfTable] using h

/-! ## Claim C8 -/

/-- C8: createEmptyLabelsDb returns a buffer of length exactly DATA_START
(0x4100), every byte from the end of the 256-byte header region up to
DATA_START is the fill value 0xFF, and the buffer passes verifyHeader. -/
theorem C8_create_empty :
    createEmptyLabelsDb.size = DATA_START ∧
    (∀ j, HEADER_SIZE ≤ j → j < DATA_START → createEmptyLabelsDb.get j = PADDING_FILL) ∧
    verifyHeader createEmptyLabelsDb = Except.ok () :=
  ⟨rfl, fun j hj _ => createEmpty_get_fill j hj, verifyHeader_createEmpty⟩

/-! ## Claim C3 -/

/-- C3: for every store-order pixel buffer whose length is a multiple of 4,
converting to display order and back to store order returns the buffer
byte-for-byte: rgbaToBgra (bgraToRgba x) = x. -/
theorem C3_color_roundtrip (x : List Nat) (h : x.length % 4 = 0) :
    rgbaToBgra (bgraToRgba x) = x :=
  rgba_roundtrip x h

theorem C3_color_roundtrip_witness :
    ([1, 2, 3, 4] : List Nat).length % 4 = 0 ∧
      rgbaToBgra (bgraToRgba [1, 2, 3, 4]) = [1, 2, 3, 4] :=
  ⟨by decide, C3_color_roundtrip [1, 2, 3, 4] (by decide)⟩

/-! ## Claim C4 -/

/-- C4 counterexample: on a buffer whose length is not a multiple of 4 the
codec does not fail: bgraToRgba and rgbaToBgra perform no length
validation at all and return a converted buffer (here, the one-byte buffer
7 yields the one-byte buffer 0, processing one partial pixel group with the
out-of-range reads giving 0 and the out-of-range writes dropped). -/
theorem C4_no_invalid_length_error :
    bgraToRgba [7] = [0] ∧ rgbaToBgra [7] = [0] := by
  constructor
  · rw [bgraToRgba]
    rw [swapRB, dif_pos (by decide)]
    rw [swapRB, dif_neg (by decide)]
    rfl
  · rw [rgbaToBgra]
    rw [swapRB, dif_pos (by decide)]
    rw [swapRB, dif_neg (by decide)]
    rfl

/-- C4 (amended): the two color-codec directions perform no length check
and never fail; for every input buffer each returns a (converted) buffer
of the same length. -/
theorem C4_length_preserved (x : List Nat) :
    (bgraToRgba x).length = x.length ∧ (rgbaToBgra x).length = x.length :=
  ⟨bgraToRgba_length x, rgbaToBgra_length x⟩

/-! ## Success-path characterizations of the mutation operations -/

/-- The image slot built from prepared display-order bytes. -/
def imageSlotOf (rgba : List Nat) : Buf :=
  Buf.copy (bufOfList (rgbaToBgra rgba)) (Buf.alloc IMAGE_SLOT_SIZE PADDING_FILL)
    0 0 (bufOfList (rgbaToBgra rgba)).size

theorem bufOfList_size (l : List Nat) : (bufOfList l).size = l.length := rfl

theorem imageSlotOf_size (rgba : List Nat) : (imageSlotOf rgba).size = IMAGE_SLOT_SIZE := rfl

theorem writeTable_size (ids : List Nat) : ∀ (b : Buf) (pos : Nat),
    (writeTable b pos ids).size = b.size := by
  induction ids with
  | nil => intro b pos; rfl
  | cons c rest ih =>
    intro b pos
    rw [writeTable, ih]
    rfl

theorem copySlots_size (src : Buf) (n : Nat) : ∀ (dst : Buf) (s d : Nat),
    (copySlots src dst s d n).size = dst.size := by
  induction n with
  | zero => intro dst s d; rfl
  | succ n ih =>
    intro dst s d
    rw [copySlots, ih]
    rfl

theorem addBuild_size (data : Buf) (ids : List Nat) (idx c : Nat) (slot : Buf) :
    (addBuild data ids idx c slot).size = data.size + IMAGE_SLOT_SIZE := by
  unfold addBuild
  rw [copySlots_size, Buf.size_copy, copySlots_size, writeTable_size,
    Buf.size_write32, writeTable_size, Buf.size_copy, Buf.size_alloc]

theorem deleteBuild_size (data : Buf) (ids : List Nat) (idx : Nat) :
    (deleteBuild data ids idx).size = data.size - IMAGE_SLOT_SIZE := by
  unfold deleteBuild
  rw [copySlots_size, copySlots_size, writeTable_size, Buf.size_copy, Buf.size_alloc]

theorem prepareImage_eq_ok (rgba : List Nat) (hlen : rgba.length = IMAGE_DATA_SIZE) :
    prepareImageForStorage rgba = Except.ok (bufOfList (rgbaToBgra rgba)) := by
  unfold prepareImageForStorage
  rw [if_neg (by omega)]

theorem createImageSlot_eq_ok (rgba : List Nat) (hlen : rgba.length = IMAGE_DATA_SIZE) :
    createImageSlot (bufOfList (rgbaToBgra rgba)) = Except.ok (imageSlotOf rgba) := by
  unfold createImageSlot
  have hsz : (bufOfList (rgbaToBgra rgba)).size = IMAGE_DATA_SIZE := by
    rw [bufOfList_size, rgbaToBgra_length, hlen]
  rw [if_neg (by omega)]
  rfl

theorem addEntry_eq_ok (data : Buf) (db : LabelsDatabase) (c : Nat) (rgba : List Nat)
    (hp : parseLabelsDb data = Except.ok db)
    (hhas : mapHas db.idToIndex c = false)
    (hc : c ≤ 4294967295)
    (hlen : rgba.length = IMAGE_DATA_SIZE) :
    addEntry data c rgba = Except.ok
      (addBuild data (db.entries.map LabelEntry.cartId)
        (findInsertIndex db.entries c 0) c (imageSlotOf rgba)) := by
  unfold addEntry
  simp only [hp]
  rw [if_neg (by simp [hhas])]
  rw [if_neg (by omega)]
  simp only [prepareImage_eq_ok rgba hlen, createImageSlot_eq_ok rgba hlen]

theorem addEntry_ok_elim (data : Buf) (c : Nat) (rgba : List Nat) (b2 : Buf)
    (h : addEntry data c rgba = Except.ok b2) :
    ∃ db, parseLabelsDb data = Except.ok db ∧ mapHas db.idToIndex c = false ∧
      c ≤ 4294967295 ∧ rgba.length = IMAGE_DATA_SIZE ∧
      b2 = addBuild data (db.entries.map LabelEntry.cartId)
        (findInsertIndex db.entries c 0) c (imageSlotOf rgba) := by
  unfold addEntry at h
  generalize hp : parseLabelsDb data = r at h
  cases r with
  | error e => simp at h
  | ok db =>
    dsimp only at h
    by_cases hhas : mapHas db.idToIndex c = true
    · rw [if_pos hhas] at h; cases h
    · rw [if_neg hhas] at h
      by_cases hc : 4294967295 < c
      · rw [if_pos hc] at h; cases h
      · rw [if_neg hc] at h
        by_cases hlen : rgba.length = IMAGE_DATA_SIZE
        · simp only [prepareImage_eq_ok rgba hlen,
            createImageSlot_eq_ok rgba hlen] at h
          cases h
          exact ⟨db, rfl, by simpa using hhas, by omega, hlen, rfl⟩
        · unfold prepareImageForStorage at h
          rw [if_pos hlen] at h
          simp at h

theorem deleteEntry_eq_ok (data : Buf) (db : LabelsDatabase) (c index : Nat)
    (hp : parseLabelsDb data = Except.ok db)
    (hg : mapGet db.idToIndex c = some index) :
    deleteEntry data c = Except.ok
      (deleteBuild data (db.entries.map LabelEntry.cartId) index) := by
  unfold deleteEntry
  simp only [hp, hg]

theorem deleteEntry_ok_elim (data : Buf) (c : Nat) (b2 : Buf)
    (h : deleteEntry data c = Except.ok b2) :
    ∃ db index, parseLabelsDb data = Except.ok db ∧
      mapGet db.idToIndex c = some index ∧
      b2 = deleteBuild data (db.entries.map LabelEntry.cartId) index := by
  unfold deleteEntry at h
  generalize hp : parseLabelsDb data = r at h
  cases r with
  | error e => simp at h
  | ok db =>
    dsimp only at h
    generalize hg : mapGet db.idToIndex c = g at h
    cases g with
    | none => simp at h
    | some index =>
      dsimp only at h
      cases h
      exact ⟨db, index, rfl, hg, rfl⟩

theorem updateEntry_eq_ok (data : Buf) (db : LabelsDatabase) (c index : Nat)
    (rgba : List Nat)
    (hp : parseLabelsDb data = Except.ok db)
    (hg : mapGet db.idToIndex c = some index)
    (hlen : rgba.length = IMAGE_DATA_SIZE) :
    updateEntry data c rgba = Except.ok
      (Buf.copy (imageSlotOf rgba) (Buf.clone data)
        (DATA_START + index * IMAGE_SLOT_SIZE) 0 (imageSlotOf rgba).size) := by
  unfold updateEntry
  simp only [hp, hg, prepareImage_eq_ok rgba hlen, createImageSlot_eq_ok rgba hlen]

/-! ## Claim C6 -/

/-- C6 counterexample: a 256-byte buffer consisting of just a valid header
passes verifyHeader, yet parseLabelsDb fails (the signed quantity
length - dataSectionStart is negative there) instead of computing
entryCount and reading the ID table. -/
theorem C6_short_buffer_cex :
    verifyHeader createHeader = Except.ok () ∧
      parseLabelsDb createHeader = Except.error "File smaller than data section start" := by
  have hv : verifyHeader createHeader = Except.ok () :=
    verifyHeader_of_header_eq createHeader (by rw [createHeader_size]) (fun j _ => rfl)
  refine ⟨hv, ?_⟩
  unfold parseLabelsDb
  rw [hv]
  have hc := constVals
  rw [if_pos (by rw [createHeader_size]; omega)]

/-- Existence of the early-stop point of the ID-table scan. -/
theorem exists_stop (data : Buf) :
    ∃ k, k ≤ slotCount data ∧
      (∀ j, j < k → tableVal data j ≠ 0xffffffff) ∧
      (k < slotCount data → tableVal data k = 0xffffffff) := by
  by_cases h : ∃ j, j < slotCount data ∧ tableVal data j = 0xffffffff
  · classical
    refine ⟨Nat.find h, ?_, ?_, ?_⟩
    · have := (Nat.find_spec h).1
      omega
    · intro j hj hval
      exact Nat.find_min h hj ⟨by have := (Nat.find_spec h).1; omega, hval⟩
    · intro _
      exact (Nat.find_spec h).2
  · refine ⟨slotCount data, Nat.le_refl _, ?_, ?_⟩
    · intro j hj hval
      exact h ⟨j, hj, hval⟩
    · intro hlt
      omega

/-- C6 (amended): for every buffer that passes header verification and is
at least dataSectionStart bytes long, parseLabelsDb succeeds; it reads the
ID table sequentially with loop bound
entryCount = floor((size - DATA_START) / IMAGE_SLOT_SIZE) (that is,
slotCount), stops early at the first 0xffffffff table value, and the
returned database contains exactly the live prefix, so trailing
empty-slot markers are not counted.  (Buffers shorter than
dataSectionStart make parseLabelsDb fail even with a valid header; see the
counterexample.) -/
theorem C6_parse_early_stop (data : Buf)
    (hver : verifyHeader data = Except.ok ())
    (hsize : DATA_START ≤ data.size) :
    ∃ db, parseLabelsDb data = Except.ok db ∧
      db.entryCount = db.entries.length ∧
      db.entries.length ≤ slotCount data ∧
      (∀ i (h : i < db.entries.length),
        db.entries.get ⟨i, h⟩ = entryOfTable data i ∧ tableVal data i ≠ 0xffffffff) ∧
      (db.entries.length < slotCount data →
        tableVal data db.entries.length = 0xffffffff) := by
  obtain ⟨k, hk, hlive, hterm⟩ := exists_stop data
  refine ⟨⟨k, entriesOfTable data k, mapOfTable data k⟩,
    parseLabelsDb_char data k hver hsize hk hlive hterm, ?_, ?_, ?_, ?_⟩
  · simp [entriesOfTable]
  · simpa [entriesOfTable] using hk
  · intro i h
    have hik : i < k := by simpa [entriesOfTable] using h
    constructor
    · simp [entriesOfTable]
    · exact hlive i hik
  · intro hlt
    have hkl : (entriesOfTable data k).length = k := by simp [entriesOfTable]
    rw [hkl] at hlt ⊢
    exact hterm hlt

theorem C6_parse_early_stop_witness :
    verifyHeader createEmptyLabelsDb = Except.ok () ∧
      DATA_START ≤ createEmptyLabelsDb.size ∧
      ∃ db, parseLabelsDb createEmptyLabelsDb = Except.ok db ∧
        db.entryCount = db.entries.length ∧
        db.entries.length ≤ slotCount createEmptyLabelsDb ∧
        (∀ i (h : i < db.entries.length),
          db.entries.get ⟨i, h⟩ = entryOfTable createEmptyLabelsDb i ∧
            tableVal createEmptyLabelsDb i ≠ 0xffffffff) ∧
        (db.entries.length < slotCount createEmptyLabelsDb →
          tableVal createEmptyLabelsDb db.entries.length = 0xffffffff) :=
  ⟨verifyHeader_createEmpty, Nat.le_refl _,
    C6_parse_early_stop createEmptyLabelsDb verifyHeader_createEmpty (Nat.le_refl _)⟩

/-! ## Claim C7 -/

theorem addEntry_ok_size (data : Buf) (c : Nat) (rgba : List Nat) (b2 : Buf)
    (h : addEntry data c rgba = Except.ok b2) :
    b2.size = data.size + IMAGE_SLOT_SIZE := by
  obtain ⟨db, _, _, _, _, hb⟩ := addEntry_ok_elim data c rgba b2 h
  rw [hb, addBuild_size]

/-- Whether an operation is an addEntry call. -/
def LabelsOp.isAdd : LabelsOp → Bool
  | LabelsOp.add _ _ => true
  | LabelsOp.del _ => false

theorem applyOps_add_size (ops : List LabelsOp) : ∀ (b0 b : Buf),
    (∀ op ∈ ops, op.isAdd = true) →
    applyOps b0 ops = Except.ok b →
    b.size = b0.size + ops.length * IMAGE_SLOT_SIZE := by
  induction ops with
  | nil =>
    intro b0 b _ happ
    cases happ
    simp
  | cons op rest ih =>
    intro b0 b hadds happ
    unfold applyOps at happ
    generalize hstep : applyOp b0 op = r at happ
    cases r with
    | error e => simp at happ
    | ok b1 =>
      dsimp only at happ
      cases op with
      | add c img =>
        have hsz : b1.size = b0.size + IMAGE_SLOT_SIZE :=
          addEntry_ok_size b0 c img b1 hstep
        have := ih b1 b (fun op hop => hadds op (List.mem_cons_of_mem _ hop)) happ
        rw [this, hsz]
        simp [List.length_cons]
        ring
      | del c =>
        have := hadds (LabelsOp.del c) (List.mem_cons_self _ _)
        simp [LabelsOp.isAdd] at this

/-- C7: a container built by createEmpty followed by n successful addEntry
calls (n at most 4) whose parse reports entryCount = n has size exactly
DATA_START + n * IMAGE_SLOT_SIZE. -/
theorem C7_size_formula (ops : List LabelsOp) (n : Nat) (b : Buf) (db : LabelsDatabase)
    (hlen : ops.length = n) (hn : n ≤ 4)
    (hadds : ∀ op ∈ ops, op.isAdd = true)
    (happ : applyOps createEmptyLabelsDb ops = Except.ok b)
    (hparse : parseLabelsDb b = Except.ok db)
    (hcount : db.entryCount = n) :
    b.size = DATA_START + n * IMAGE_SLOT_SIZE := by
  have := applyOps_add_size ops createEmptyLabelsDb b hadds happ
  rw [this, createEmptyLabelsDb_size, hlen]

theorem C7_size_formula_witness :
    ([] : List LabelsOp).length = 0 ∧ 0 ≤ 4 ∧
      applyOps createEmptyLabelsDb [] = Except.ok createEmptyLabelsDb ∧
      parseLabelsDb createEmptyLabelsDb = Except.ok ⟨0, [], []⟩ ∧
      createEmptyLabelsDb.size = DATA_START + 0 * IMAGE_SLOT_SIZE :=
  ⟨rfl, by omega, rfl, parse_createEmpty,
    C7_size_formula [] 0 createEmptyLabelsDb ⟨0, [], []⟩ rfl (by omega)
      (fun op hop => absurd hop (List.not_mem_nil op)) rfl parse_createEmpty rfl⟩

/-! ## Claim C10 -/

theorem parse_ok_verify (data : Buf) (db : LabelsDatabase)
    (h : parseLabelsDb data = Except.ok db) :
    verifyHeader data = Except.ok () ∧ DATA_START ≤ data.size := by
  unfold parseLabelsDb at h
  split at h
  · exact Except.noConfusion h
  · rename_i u heq
    split at h
    · exact Except.noConfusion h
    · rename_i hsz
      cases u
      exact ⟨heq, by omega⟩

/-- Every successful parse result is the live-prefix characterization for
some stopping point k. -/
theorem parse_ok_char (data : Buf) (db : LabelsDatabase)
    (h : parseLabelsDb data = Except.ok db) :
    ∃ k, k ≤ slotCount data ∧
      (∀ j, j < k → tableVal data j ≠ 0xffffffff) ∧
      (k < slotCount data → tableVal data k = 0xffffffff) ∧
      db = ⟨k, entriesOfTable data k, mapOfTable data k⟩ := by
  obtain ⟨hver, hsize⟩ := parse_ok_verify data db h
  obtain ⟨k, hk, hlive, hterm⟩ := exists_stop data
  have hchar := parseLabelsDb_char data k hver hsize hk hlive hterm
  rw [h] at hchar
  exact ⟨k, hk, hlive, hterm, Except.ok.inj hchar⟩

theorem parse_entries_no_ffff (data : Buf) (db : LabelsDatabase)
    (h : parseLabelsDb data = Except.ok db) :
    ∀ e ∈ db.entries, e.cartId ≠ 0xffffffff := by
  obtain ⟨k, _, hlive, _, hdb⟩ := parse_ok_char data db h
  rw [hdb]
  intro e he
  simp only [entriesOfTable, List.mem_map, List.mem_range] at he
  obtain ⟨j, hj, hje⟩ := he
  rw [← hje]
  exact hlive j hj

theorem parse_map_no_ffff (data : Buf) (db : LabelsDatabase)
    (h : parseLabelsDb data = Except.ok db) :
    mapHas db.idToIndex 0xffffffff = false := by
  obtain ⟨k, _, hlive, _, hdb⟩ := parse_ok_char data db h
  rw [hdb]
  by_cases hh : mapHas (mapOfTable data k) 0xffffffff = true
  · exfalso
    rcases List.any_eq_true.mp hh with ⟨p, hp, hpk⟩
    obtain ⟨hlt, hval⟩ := mapOfTable_mem data k p hp
    simp only [beq_iff_eq] at hpk
    exact hlive p.2 hlt (by rw [hval, hpk])
  · simpa using hh

/-- C10: no parsed entry ever has cartId 0xffffffff (the all-ones value is
the table terminator); addEntry with cartId 0xffffffff always succeeds on
a parseable buffer, growing it by one slot, yet that entry is invisible to
every subsequent parseLabelsDb call (no parse result of any buffer
contains a 0xffffffff entry). -/
theorem C10_ffffffff_invisible (data : Buf) (db : LabelsDatabase) (rgba : List Nat)
    (hp : parseLabelsDb data = Except.ok db)
    (hlen : rgba.length = IMAGE_DATA_SIZE) :
    (∃ b2, addEntry data 0xffffffff rgba = Except.ok b2 ∧
      b2.size = data.size + IMAGE_SLOT_SIZE) ∧
    (∀ (data2 : Buf) (db2 : LabelsDatabase), parseLabelsDb data2 = Except.ok db2 →
      ∀ e ∈ db2.entries, e.cartId ≠ 0xffffffff) := by
  constructor
  · refine ⟨_, addEntry_eq_ok data db 0xffffffff rgba hp
      (parse_map_no_ffff data db hp) (by omega) hlen, ?_⟩
    rw [addBuild_size]
  · exact fun data2 db2 h2 => parse_entries_no_ffff data2 db2 h2

theorem C10_ffffffff_invisible_witness :
    parseLabelsDb createEmptyLabelsDb = Except.ok ⟨0, [], []⟩ ∧
      (List.replicate IMAGE_DATA_SIZE 0).length = IMAGE_DATA_SIZE ∧
      ((∃ b2, addEntry createEmptyLabelsDb 0xffffffff (List.replicate IMAGE_DATA_SIZE 0)
          = Except.ok b2 ∧ b2.size = createEmptyLabelsDb.size + IMAGE_SLOT_SIZE) ∧
        (∀ (data2 : Buf) (db2 : LabelsDatabase),
          parseLabelsDb data2 = Except.ok db2 →
          ∀ e ∈ db2.entries, e.cartId ≠ 0xffffffff)) :=
  ⟨parse_createEmpty, List.length_replicate _ _,
    C10_ffffffff_invisible createEmptyLabelsDb ⟨0, [], []⟩
      (List.replicate IMAGE_DATA_SIZE 0) parse_createEmpty (List.length_replicate _ _)⟩

/-! ## Claim C2 -/

theorem slotCount_mul_le (data : Buf) (h : DATA_START ≤ data.size) :
    DATA_START + slotCount data * IMAGE_SLOT_SIZE ≤ data.size := by
  unfold slotCount
  have h2 := Nat.div_mul_le_self (data.size - DATA_START) IMAGE_SLOT_SIZE
  omega

theorem parse_index_lt (data : Buf) (db : LabelsDatabase) (c idx : Nat)
    (hp : parseLabelsDb data = Except.ok db)
    (hg : mapGet db.idToIndex c = some idx) :
    idx < slotCount data ∧ tableVal data idx = c ∧ DATA_START ≤ data.size := by
  obtain ⟨k, hk, _, _, hdb⟩ := parse_ok_char data db hp
  rw [hdb] at hg
  obtain ⟨hlt, hval⟩ := mapGet_mapOfTable_some data k c idx hg
  exact ⟨by omega, hval, (parse_ok_verify data db hp).2⟩

theorem imageSlotOf_copyLen (rgba : List Nat) (hlen : rgba.length = IMAGE_DATA_SIZE) :
    Buf.copyLen (bufOfList (rgbaToBgra rgba)) (Buf.alloc IMAGE_SLOT_SIZE PADDING_FILL)
      0 0 (bufOfList (rgbaToBgra rgba)).size = IMAGE_DATA_SIZE := by
  have hsz : (bufOfList (rgbaToBgra rgba)).size = IMAGE_DATA_SIZE := by
    rw [bufOfList_size, rgbaToBgra_length, hlen]
  unfold Buf.copyLen
  rw [hsz, Buf.size_alloc]
  have hc := constVals
  omega

theorem imageSlotOf_get_data (rgba : List Nat) (hlen : rgba.length = IMAGE_DATA_SIZE)
    (r : Nat) (hr : r < IMAGE_DATA_SIZE) :
    (imageSlotOf rgba).get r = (rgbaToBgra rgba).getD r 0 := by
  unfold imageSlotOf
  rw [Buf.get_copy_of_mem _ _ _ _ _ _ (by omega)
    (by rw [imageSlotOf_copyLen rgba hlen]; omega)]
  simp [bufOfList]

theorem imageSlotOf_get_pad (rgba : List Nat) (hlen : rgba.length = IMAGE_DATA_SIZE)
    (r : Nat) (hr : IMAGE_DATA_SIZE ≤ r) :
    (imageSlotOf rgba).get r = PADDING_FILL := by
  unfold imageSlotOf
  rw [Buf.get_copy_of_ge _ _ _ _ _ _ (by rw [imageSlotOf_copyLen rgba hlen]; omega)]
  rfl

/-- Number of bytes moved by the slot copy of updateEntry: the whole slot,
padding included. -/
theorem updateSlot_copyLen (data : Buf) (idx : Nat) (rgba : List Nat)
    (hlen : rgba.length = IMAGE_DATA_SIZE)
    (hidx : idx < slotCount data) (hsize : DATA_START ≤ data.size) :
    Buf.copyLen (imageSlotOf rgba) (Buf.clone data)
      (DATA_START + idx * IMAGE_SLOT_SIZE) 0 (imageSlotOf rgba).size
      = IMAGE_SLOT_SIZE := by
  have hb := slotCount_mul_le data hsize
  have hsl : (imageSlotOf rgba).size = IMAGE_SLOT_SIZE := imageSlotOf_size rgba
  unfold Buf.copyLen
  rw [hsl]
  have hclone : (Buf.clone data).size = data.size := rfl
  rw [hclone]
  have hidx2 : DATA_START + idx * IMAGE_SLOT_SIZE + IMAGE_SLOT_SIZE ≤ data.size := by
    have hmul : (idx + 1) * IMAGE_SLOT_SIZE ≤ slotCount data * IMAGE_SLOT_SIZE :=
      Nat.mul_le_mul_right _ (by omega)
    have hdist : (idx + 1) * IMAGE_SLOT_SIZE = idx * IMAGE_SLOT_SIZE + IMAGE_SLOT_SIZE := by
      ring
    have hc := constVals
    omega
  omega

/-- C2 (amended): for every parseable buffer and present cartId, updateEntry
returns a new buffer of the same size in which every byte outside the
target slot (the full slotSize region) equals the corresponding input
byte, the slot's image-data region holds toStoreOrder of the new display
bytes, and the slot's trailing padding bytes are overwritten with the fill
value 0xFF (not left untouched).  The input buffer is never mutated:
the operation is a pure function of it. -/
theorem C2_update_frame (data : Buf) (db : LabelsDatabase) (cartId idx : Nat)
    (rgba : List Nat)
    (hp : parseLabelsDb data = Except.ok db)
    (hg : mapGet db.idToIndex cartId = some idx)
    (hlen : rgba.length = IMAGE_DATA_SIZE) :
    ∃ nd, updateEntry data cartId rgba = Except.ok nd ∧
      nd.size = data.size ∧
      (∀ j, j < data.size →
        j < DATA_START + idx * IMAGE_SLOT_SIZE ∨
          DATA_START + (idx + 1) * IMAGE_SLOT_SIZE ≤ j →
        nd.get j = data.get j) ∧
      (∀ r, r < IMAGE_DATA_SIZE →
        nd.get (DATA_START + idx * IMAGE_SLOT_SIZE + r) = (rgbaToBgra rgba).getD r 0) ∧
      (∀ r, IMAGE_DATA_SIZE ≤ r → r < IMAGE_SLOT_SIZE →
        nd.get (DATA_START + idx * IMAGE_SLOT_SIZE + r) = PADDING_FILL) := by
  obtain ⟨hidx, _, hsize⟩ := parse_index_lt data db cartId idx hp hg
  have hcl := updateSlot_copyLen data idx rgba hlen hidx hsize
  have hdist : (idx + 1) * IMAGE_SLOT_SIZE = idx * IMAGE_SLOT_SIZE + IMAGE_SLOT_SIZE := by
    ring
  refine ⟨_, updateEntry_eq_ok data db cartId idx rgba hp hg hlen, rfl, ?_, ?_, ?_⟩
  · intro j _ hj
    rcases hj with hj | hj
    · rw [Buf.get_copy_of_lt _ _ _ _ _ _ hj]
      rfl
    · rw [Buf.get_copy_of_ge _ _ _ _ _ _ (by rw [hcl]; omega)]
      rfl
  · intro r hr
    have hc := constVals
    rw [Buf.get_copy_of_mem _ _ _ _ _ _ (by omega) (by rw [hcl]; omega)]
    have : 0 + (DATA_START + idx * IMAGE_SLOT_SIZE + r - (DATA_START + idx * IMAGE_SLOT_SIZE)) = r := by
      omega
    rw [this]
    exact imageSlotOf_get_data rgba hlen r hr
  · intro r hr1 hr2
    have hc := constVals
    rw [Buf.get_copy_of_mem _ _ _ _ _ _ (by omega) (by rw [hcl]; omega)]
    have : 0 + (DATA_START + idx * IMAGE_SLOT_SIZE + r - (DATA_START + idx * IMAGE_SLOT_SIZE)) = r := by
      omega
    rw [this]
    exact imageSlotOf_get_pad rgba hlen r hr1

/-- An all-zero display-order image of the correct size. -/
def zeroRgba : List Nat := List.replicate IMAGE_DATA_SIZE 0

theorem zeroRgba_length : zeroRgba.length = IMAGE_DATA_SIZE :=
  List.length_replicate _ _

/-- A valid one-entry container (cartId 1) whose slot-0 padding byte at
offset DATA_START + IMAGE_DATA_SIZE is 0x00 rather than the fill value. -/
def c2buf : Buf :=
  ⟨DATA_START + IMAGE_SLOT_SIZE, fun j =>
    if j < HEADER_SIZE then createHeader.get j
    else if j = ID_TABLE_START then 1
    else if j < ID_TABLE_START + 4 then 0
    else if j = DATA_START + IMAGE_DATA_SIZE then 0
    else PADDING_FILL⟩

theorem c2buf_size : c2buf.size = DATA_START + IMAGE_SLOT_SIZE := rfl

theorem slotCount_c2buf : slotCount c2buf = 1 := rfl

theorem c2buf_header (j : Nat) (hj : j < HEADER_SIZE) :
    c2buf.get j = createHeader.get j := by
  show (if j < HEADER_SIZE then createHeader.get j
    else if j = ID_TABLE_START then 1
    else if j < ID_TABLE_START + 4 then 0
    else if j = DATA_START + IMAGE_DATA_SIZE then 0
    else PADDING_FILL) = createHeader.get j
  rw [if_pos hj]

theorem c2buf_table0 : tableVal c2buf 0 = 1 := by decide

theorem c2buf_parse :
    parseLabelsDb c2buf = Except.ok ⟨1, entriesOfTable c2buf 1, mapOfTable c2buf 1⟩ := by
  have hc := constVals
  refine parseLabelsDb_char c2buf 1 ?_ ?_ ?_ ?_ ?_
  · exact verifyHeader_of_header_eq c2buf (by rw [c2buf_size]; omega) c2buf_header
  · rw [c2buf_size]
    omega
  · rw [slotCount_c2buf]
  · intro j hj
    have : j = 0 := by omega
    rw [this, c2buf_table0]
    omega
  · rw [slotCount_c2buf]
    omega

theorem c2buf_mapGet : mapGet (mapOfTable c2buf 1) 1 = some 0 := by decide

/-- C2 counterexample: on c2buf (a valid container whose slot-0 padding
byte is 0x00) updateEntry overwrites that padding byte with the fill value
0xFF, so a byte outside the target slot's image-data region does not equal
the corresponding input byte. -/
theorem C2_padding_overwritten :
    (updateEntry c2buf 1 zeroRgba).map
        (fun nd => nd.get (DATA_START + IMAGE_DATA_SIZE)) = Except.ok PADDING_FILL ∧
      c2buf.get (DATA_START + IMAGE_DATA_SIZE) = 0 := by
  have hc := constVals
  constructor
  · rw [updateEntry_eq_ok c2buf ⟨1, entriesOfTable c2buf 1, mapOfTable c2buf 1⟩ 1 0
      zeroRgba c2buf_parse c2buf_mapGet zeroRgba_length]
    have hcl := updateSlot_copyLen c2buf 0 zeroRgba zeroRgba_length
      (by rw [slotCount_c2buf]; omega) (by rw [c2buf_size]; omega)
    simp only [Except.map]
    rw [Buf.get_copy_of_mem _ _ _ _ _ _ (by omega) (by rw [hcl]; omega)]
    have harg : 0 + (DATA_START + IMAGE_DATA_SIZE - (DATA_START + 0 * IMAGE_SLOT_SIZE))
        = IMAGE_DATA_SIZE := by omega
    rw [harg, imageSlotOf_get_pad zeroRgba zeroRgba_length IMAGE_DATA_SIZE (Nat.le_refl _)]
  · decide

theorem C2_update_frame_witness :
    parseLabelsDb c2buf = Except.ok ⟨1, entriesOfTable c2buf 1, mapOfTable c2buf 1⟩ ∧
      mapGet (mapOfTable c2buf 1) 1 = some 0 ∧
      zeroRgba.length = IMAGE_DATA_SIZE ∧
      (∃ nd, updateEntry c2buf 1 zeroRgba = Except.ok nd ∧
        nd.size = c2buf.size ∧
        (∀ j, j < c2buf.size →
          j < DATA_START + 0 * IMAGE_SLOT_SIZE ∨
            DATA_START + (0 + 1) * IMAGE_SLOT_SIZE ≤ j →
          nd.get j = c2buf.get j) ∧
        (∀ r, r < IMAGE_DATA_SIZE →
          nd.get (DATA_START + 0 * IMAGE_SLOT_SIZE + r) = (rgbaToBgra zeroRgba).getD r 0) ∧
        (∀ r, IMAGE_DATA_SIZE ≤ r → r < IMAGE_SLOT_SIZE →
          nd.get (DATA_START + 0 * IMAGE_SLOT_SIZE + r) = PADDING_FILL)) :=
  ⟨c2buf_parse, c2buf_mapGet, zeroRgba_length,
    C2_update_frame c2buf ⟨1, entriesOfTable c2buf 1, mapOfTable c2buf 1⟩ 1 0 zeroRgba
      c2buf_parse c2buf_mapGet zeroRgba_length⟩

/-! ## Checksum identity (compute-a3d-id) -/

/-- Size of data to hash for the A3D cart id (8 KiB). -/
def A3D_HASH_SIZE : Nat := 8192

/-- One bit-step of the reflected CRC-32 polynomial 0xEDB88320. -/
def crcStep (crc : Nat) : Nat :=
  if crc % 2 = 1 then Nat.xor 0xEDB88320 (crc / 2) else crc / 2

/-- The table entry for index i: eight bit-steps starting from i (the
standard IEEE CRC32 table of the source). -/
def CRC32_TABLE (i : Nat) : Nat := crcStep^[8] i

/-- Table-driven CRC32: init 0xFFFFFFFF, per byte
crc = table[(crc xor b) and 0xFF] xor (crc shifted right 8), final xor
0xFFFFFFFF. -/
def crc32 (data : List Nat) : Nat :=
  Nat.xor
    (data.foldl (fun crc b => Nat.xor (CRC32_TABLE (Nat.xor crc b % 256)) (crc / 256))
      0xFFFFFFFF)
    0xFFFFFFFF

/-- Read with out-of-range-as-0 (Uint8Array read semantics). -/
def bufRead (l : List Nat) (i : Nat) : Nat := l.getD i 0

/-- The three known magic signatures of a cartridge dump. -/
inductive RomFormat where
  | z64
  | v64
  | n64
  | unknown
deriving DecidableEq

/-- Detect ROM byte order from the first four bytes (big-endian read). -/
def detectRomFormat (data : List Nat) : RomFormat :=
  if data.length < 4 then RomFormat.unknown
  else
    let first4 := bufRead data 0 * 16777216 + bufRead data 1 * 65536 +
      bufRead data 2 * 256 + bufRead data 3
    if first4 = 0x80371240 then RomFormat.z64
    else if first4 = 0x37804012 then RomFormat.v64
    else if first4 = 0x40123780 then RomFormat.n64
    else RomFormat.unknown

/-- The byte-swap loop of convertToZ64 for v64 dumps (AB CD to BA DC). -/
def byteSwapLoop (src dst : List Nat) (i : Nat) : List Nat :=
  if _h : i < src.length then
    let d0 := dst.set i (src.getD (i + 1) 0)
    let d1 := d0.set (i + 1) (src.getD i 0)
    byteSwapLoop src d1 (i + 2)
  else dst
termination_by src.length - i
decreasing_by omega

/-- The word-swap loop of convertToZ64 for n64 dumps (reverse each 4). -/
def wordSwapLoop (src dst : List Nat) (i : Nat) : List Nat :=
  if _h : i < src.length then
    let d0 := dst.set i (src.getD (i + 3) 0)
    let d1 := d0.set (i + 1) (src.getD (i + 2) 0)
    let d2 := d1.set (i + 2) (src.getD (i + 1) 0)
    let d3 := d2.set (i + 3) (src.getD i 0)
    wordSwapLoop src d3 (i + 4)
  else dst
termination_by src.length - i
decreasing_by omega

/-- Convert a dump to Z64 (big-endian) order if needed. -/
def convertToZ64 (data : List Nat) (format : RomFormat) : List Nat :=
  match format with
  | RomFormat.z64 => data
  | RomFormat.v64 => byteSwapLoop data (List.replicate data.length 0) 0
  | RomFormat.n64 => wordSwapLoop data (List.replicate data.length 0) 0
  | RomFormat.unknown => data

/-- Bytes decoded through the ascii encoding (high bit masked). -/
def jsAsciiOfBytes (bytes : List Nat) : String :=
  String.mk (bytes.map (fun b => Char.ofNat (b % 128)))

/-- ROM title: bytes 0x20 to 0x34 as ascii, trimmed, NULs removed. -/
def extractRomTitle (data : List Nat) : String :=
  String.mk (((jsAsciiOfBytes ((data.take 0x34).drop 0x20)).trim).toList.filter
    (fun ch => ch ≠ Char.ofNat 0))

/-- Game code: bytes 0x3B to 0x3F as ascii. -/
def extractGameCode (data : List Nat) : String :=
  jsAsciiOfBytes ((data.take 0x3F).drop 0x3B)

/-- Region code: the character with the code of byte 0x3E. -/
def extractRegionCode (data : List Nat) : Char :=
  Char.ofNat (bufRead data 0x3E)

/-- Version: byte 0x3F. -/
def extractVersion (data : List Nat) : Nat := bufRead data 0x3F

/-- The record computeA3DId returns.  The source also carries the basename
of the ROM path, a filesystem detail that the shallow embedding omits. -/
structure A3DIdResult where
  id : String
  title : String
  gameCode : String
  regionCode : Char
  version : Nat
  format : RomFormat
deriving DecidableEq

/-- Compute the A3D cart id from the bytes of a ROM file (the fs read is
modelled by taking the file content as input). -/
def computeA3DId (fd : List Nat) : Except String A3DIdResult :=
  let data := fd.take (min (A3D_HASH_SIZE + 0x40) fd.length)
  if data.length < A3D_HASH_SIZE then
    Except.error "ROM file too small"
  else
    let format := detectRomFormat data
    let z64Data := convertToZ64 data format
    let title := extractRomTitle z64Data
    let gameCode := extractGameCode z64Data
    let regionCode := extractRegionCode z64Data
    let version := extractVersion z64Data
    let hashData := z64Data.take A3D_HASH_SIZE
    let crc := crc32 hashData
    let id := hex8 crc
    Except.ok ⟨id, title, gameCode, regionCode, version, format⟩

theorem crcStep_lt (c : Nat) (h : c < 4294967296) : crcStep c < 4294967296 := by
  unfold crcStep
  split
  · have h1 : (0xEDB88320 : Nat) < 2 ^ 32 := by decide
    have h2 : c / 2 < 2 ^ 32 := by omega
    have := Nat.xor_lt_two_pow h1 h2
    simpa using this
  · omega

theorem crcTable_lt (i : Nat) (h : i < 4294967296) : CRC32_TABLE i < 4294967296 := by
  unfold CRC32_TABLE
  have step : ∀ n c, c < 4294967296 → crcStep^[n] c < 4294967296 := by
    intro n
    induction n with
    | zero => intro c hc; simpa using hc
    | succ n ih =>
      intro c hc
      rw [Function.iterate_succ_apply]
      exact ih _ (crcStep_lt c hc)
  exact step 8 i h

theorem crc32_lt (data : List Nat) : crc32 data < 4294967296 := by
  unfold crc32
  have hpow : (2 : Nat) ^ 32 = 4294967296 := by norm_num
  have hfold : ∀ (l : List Nat) (acc : Nat), acc < 4294967296 →
      l.foldl (fun crc b => Nat.xor (CRC32_TABLE (Nat.xor crc b % 256)) (crc / 256)) acc
        < 4294967296 := by
    intro l
    induction l with
    | nil =>
      intro acc hacc
      simpa using hacc
    | cons b rest ih =>
      intro acc hacc
      rw [List.foldl_cons]
      refine ih _ ?_
      have h1 : CRC32_TABLE (Nat.xor acc b % 256) < 2 ^ 32 := by
        rw [hpow]
        exact crcTable_lt (Nat.xor acc b % 256) (by omega)
      have h2 : acc / 256 < 2 ^ 32 := by
        rw [hpow]
        omega
      have := Nat.xor_lt_two_pow h1 h2
      rw [hpow] at this
      exact this
  have h1 : List.foldl
      (fun crc b => Nat.xor (CRC32_TABLE (Nat.xor crc b % 256)) (crc / 256))
      0xFFFFFFFF data < 2 ^ 32 := by
    rw [hpow]
    exact hfold data 0xFFFFFFFF (by norm_num)
  have h2 : (0xFFFFFFFF : Nat) < 2 ^ 32 := by norm_num
  have := Nat.xor_lt_two_pow h1 h2
  rw [hpow] at this
  exact this

theorem hexChars_length_le (k : Nat) : ∀ n, n < 16 ^ (k + 1) →
    (hexChars n).length ≤ k + 1 := by
  induction k with
  | zero =>
    intro n hn
    rw [hexChars]
    rw [dif_pos (by norm_num at hn; omega)]
    simp
  | succ k ih =>
    intro n hn
    rw [hexChars]
    split
    · simp
    · rename_i hge
      have hdiv : n / 16 < 16 ^ (k + 1) := by
        rw [Nat.div_lt_iff_lt_mul (by omega)]
        calc n < 16 ^ (k + 1 + 1) := hn
        _ = 16 ^ (k + 1) * 16 := by ring
      have := ih (n / 16) hdiv
      simp only [List.length_append, List.length_cons, List.length_nil]
      omega

theorem hexChars_length_pos (n : Nat) : 1 ≤ (hexChars n).length := by
  rw [hexChars]
  split
  · simp
  · simp only [List.length_append, List.length_cons, List.length_nil]
    omega

theorem hex8_length (n : Nat) (h : n < 4294967296) : (hex8 n).length = 8 := by
  have hle : (hexChars n).length ≤ 8 := by
    have h16 : n < 16 ^ (7 + 1) := by norm_num; omega
    exact hexChars_length_le 7 n h16
  unfold hex8
  have hlen : (String.mk (List.replicate (8 - (hexChars n).length) (Char.ofNat 48)
      ++ hexChars n)).length =
      (List.replicate (8 - (hexChars n).length) (Char.ofNat 48)).length +
        (hexChars n).length := by
    simp [String.length]
  rw [hlen, List.length_replicate]
  omega

theorem bufRead_take (l : List Nat) (m i : Nat) (hi : i < m) :
    bufRead (l.take m) i = bufRead l i := by
  unfold bufRead
  rw [List.getD_eq_getElem?_getD, List.getD_eq_getElem?_getD, List.getElem?_take,
    if_pos hi]

theorem detect_take (fd : List Nat) (m : Nat) (h4 : 4 ≤ m) (hlen : 4 ≤ fd.length) :
    detectRomFormat (fd.take m) = detectRomFormat fd := by
  have hb0 := bufRead_take fd m 0 (by omega)
  have hb1 := bufRead_take fd m 1 (by omega)
  have hb2 := bufRead_take fd m 2 (by omega)
  have hb3 := bufRead_take fd m 3 (by omega)
  have hlen1 : ¬ ((fd.take m).length < 4) := by
    rw [List.length_take]
    omega
  have hlen2 : ¬ (fd.length < 4) := by omega
  simp only [detectRomFormat, hb0, hb1, hb2, hb3, hlen1, hlen2, if_false, ite_false]

/-- C5: for every canonical-order (z64-detected or signature-less) buffer of
at least 8192 bytes, computeA3DId returns the table-driven CRC-32
(reflected polynomial 0xEDB88320, init 0xFFFFFFFF, final xor 0xFFFFFFFF)
of exactly the first 8192 bytes, rendered as an 8-character lowercase hex
string; every buffer shorter than 8192 bytes yields an error instead. -/
theorem C5_identity_crc (fd : List Nat)
    (h8 : A3D_HASH_SIZE ≤ fd.length)
    (hfmt : detectRomFormat fd = RomFormat.z64 ∨ detectRomFormat fd = RomFormat.unknown) :
    (∃ r, computeA3DId fd = Except.ok r ∧
      r.id = hex8 (crc32 (fd.take A3D_HASH_SIZE)) ∧ r.id.length = 8) ∧
    (∀ fd2 : List Nat, fd2.length < A3D_HASH_SIZE →
      computeA3DId fd2 = Except.error "ROM file too small") := by
  have hc8 : A3D_HASH_SIZE = 8192 := rfl
  constructor
  · have hdlen : (fd.take (min (A3D_HASH_SIZE + 0x40) fd.length)).length
        = min (A3D_HASH_SIZE + 0x40) fd.length := by
      simp [List.length_take]
    have hdet : detectRomFormat (fd.take (min (A3D_HASH_SIZE + 0x40) fd.length))
        = detectRomFormat fd :=
      detect_take fd _ (by omega) (by omega)
    have hconv : convertToZ64 (fd.take (min (A3D_HASH_SIZE + 0x40) fd.length))
        (detectRomFormat (fd.take (min (A3D_HASH_SIZE + 0x40) fd.length)))
        = fd.take (min (A3D_HASH_SIZE + 0x40) fd.length) := by
      rw [hdet]
      rcases hfmt with hf | hf <;> rw [hf] <;> rfl
    have hhash : (fd.take (min (A3D_HASH_SIZE + 0x40) fd.length)).take A3D_HASH_SIZE
        = fd.take A3D_HASH_SIZE := by
      rw [List.take_take]
      congr 1
      omega
    have hmain : computeA3DId fd = Except.ok
        ⟨hex8 (crc32 (fd.take A3D_HASH_SIZE)),
         extractRomTitle (fd.take (min (A3D_HASH_SIZE + 0x40) fd.length)),
         extractGameCode (fd.take (min (A3D_HASH_SIZE + 0x40) fd.length)),
         extractRegionCode (fd.take (min (A3D_HASH_SIZE + 0x40) fd.length)),
         extractVersion (fd.take (min (A3D_HASH_SIZE + 0x40) fd.length)),
         detectRomFormat (fd.take (min (A3D_HASH_SIZE + 0x40) fd.length))⟩ := by
      simp only [computeA3DId]
      rw [if_neg (by rw [hdlen]; omega)]
      rw [hconv, hhash]
    exact ⟨_, hmain, rfl, hex8_length _ (crc32_lt _)⟩
  · intro fd2 hlt
    simp only [computeA3DId]
    rw [if_pos (by rw [List.length_take]; omega)]

theorem bufRead_replicate (n i v : Nat) : bufRead (List.replicate n v) i =
    if i < n then v else 0 := by
  unfold bufRead
  rw [List.getD_eq_getElem?_getD, List.getElem?_replicate]
  split
  · rfl
  · rfl

theorem detect_replicate_zero :
    detectRomFormat (List.replicate 8192 (0 : Nat)) = RomFormat.unknown := by
  unfold detectRomFormat
  rw [if_neg (by rw [List.length_replicate]; omega)]
  simp only [bufRead_replicate]
  norm_num

theorem C5_identity_crc_witness :
    A3D_HASH_SIZE ≤ (List.replicate 8192 (0 : Nat)).length ∧
      (detectRomFormat (List.replicate 8192 (0 : Nat)) = RomFormat.z64 ∨
        detectRomFormat (List.replicate 8192 (0 : Nat)) = RomFormat.unknown) ∧
      ((∃ r, computeA3DId (List.replicate 8192 (0 : Nat)) = Except.ok r ∧
        r.id = hex8 (crc32 ((List.replicate 8192 (0 : Nat)).take A3D_HASH_SIZE)) ∧
        r.id.length = 8) ∧
      (∀ fd2 : List Nat, fd2.length < A3D_HASH_SIZE →
        computeA3DId fd2 = Except.error "ROM file too small")) :=
  ⟨by rw [List.length_replicate]; exact Nat.le_of_eq rfl,
    Or.inr detect_replicate_zero,
    C5_identity_crc (List.replicate 8192 0)
      (by rw [List.length_replicate]; exact Nat.le_of_eq rfl)
      (Or.inr detect_replicate_zero)⟩

set_option maxRecDepth 4000 in
/-- The modelled crc32 meets the CRC-32/ISO-HDLC check value: the CRC of
the ascii digits 1 to 9 is 0xCBF43926. -/
theorem crc32_check_vector : crc32 [49, 50, 51, 52, 53, 54, 55, 56, 57] = 0xCBF43926 := by
  decide


inductive SyncEvent where
  | start (total folderCount labelCount : Nat)
  | progress (current total : Nat)
  | complete
  | error
deriving DecidableEq

def exportCurrentsAux : List Bool → Nat → List Nat
  | [], _ => []
  | b :: rest, c =>
    if b then (c + 1) :: exportCurrentsAux rest (c + 1) else exportCurrentsAux rest c

def exportCurrents (flags : List Bool) : List Nat := exportCurrentsAux flags 0

def applyStreamEvents (earlyFail : Bool) (folderOps : Nat) (hasLabels : Bool)
    (flags : List Bool) (exportStop : Nat) : List SyncEvent :=
  if earlyFail then [SyncEvent.error]
  else
    let labelCount := if hasLabels then flags.length else 0
    let total := folderOps + labelCount
    [SyncEvent.start total folderOps labelCount]
      ++ (List.range folderOps).map (fun i => SyncEvent.progress i total)
      ++ (if hasLabels then
            SyncEvent.progress folderOps total ::
              ((exportCurrents flags).take exportStop).map
                (fun c => SyncEvent.progress (folderOps + c) total)
          else [])
      ++ [SyncEvent.complete]

def progressCurrents (evs : List SyncEvent) : List Nat :=
  evs.filterMap (fun e => match e with
    | SyncEvent.progress c _ => some c
    | _ => none)

theorem exportCurrentsAux_chain (flags : List Bool) : ∀ (c : Nat),
    List.Chain' (fun a b => a < b) (exportCurrentsAux flags c) ∧
      ∀ x ∈ exportCurrentsAux flags c, c < x := by
  induction flags with
  | nil =>
    intro c
    exact ⟨List.chain'_nil, fun x hx => absurd hx (List.not_mem_nil x)⟩
  | cons b rest ih =>
    intro c
    unfold exportCurrentsAux
    split
    · obtain ⟨hch, hbd⟩ := ih (c + 1)
      constructor
      · rw [List.chain'_cons']
        refine ⟨?_, hch⟩
        intro y hy
        exact hbd y (List.mem_of_mem_head? hy)
      · intro x hx
        rcases List.mem_cons.mp hx with h | h
        · omega
        · have := hbd x h
          omega
    · exact ih c

theorem progressCurrents_append (l1 l2 : List SyncEvent) :
    progressCurrents (l1 ++ l2) = progressCurrents l1 ++ progressCurrents l2 := by
  unfold progressCurrents
  rw [List.filterMap_append]

theorem filterMap_progress (T : Nat) (f : Nat → Nat) (L : List Nat) :
    List.filterMap (fun e => match e with
        | SyncEvent.progress c _ => some c
        | _ => none)
      (L.map (fun c => SyncEvent.progress (f c) T)) = L.map f := by
  induction L with
  | nil => rfl
  | cons a rest ih =>
    rw [List.map_cons, List.filterMap_cons, List.map_cons]
    simpa using ih

theorem progressCurrents_range (F T : Nat) :
    progressCurrents ((List.range F).map (fun i => SyncEvent.progress i T)) =
      List.range F := by
  unfold progressCurrents
  have := filterMap_progress T (fun i => i) (List.range F)
  simpa using this

theorem progressCurrents_labelPhase (F T : Nat) (L : List Nat) :
    progressCurrents (SyncEvent.progress F T ::
        L.map (fun c => SyncEvent.progress (F + c) T)) =
      F :: L.map (fun c => F + c) := by
  unfold progressCurrents
  rw [List.filterMap_cons]
  have := filterMap_progress T (fun c => F + c) L
  simp only [this]

theorem chain_currents (F : Nat) (L : List Nat)
    (hch : List.Chain' (fun a b => a < b) L)
    (hpos : ∀ x ∈ L, 0 < x) :
    List.Chain' (fun a b => a < b)
      (List.range F ++ F :: L.map (fun c => F + c)) := by
  have h1 : List.Chain' (fun a b => a < b) (List.range F) :=
    List.Pairwise.chain' (List.pairwise_lt_range F)
  have h2 : List.Chain' (fun a b => a < b) (L.map (fun c => F + c)) := by
    rw [List.chain'_map]
    exact hch.imp (fun a b h => by omega)
  have h3 : List.Chain' (fun a b => a < b) (F :: L.map (fun c => F + c)) := by
    rw [List.chain'_cons']
    refine ⟨?_, h2⟩
    intro y hy
    have : y ∈ L.map (fun c => F + c) := List.mem_of_mem_head? hy
    rcases List.mem_map.mp this with ⟨x, hx, hxy⟩
    have := hpos x hx
    omega
  refine List.Chain'.append h1 h3 ?_
  intro x hx y hy
  have hxm : x ∈ List.range F := List.mem_of_mem_getLast? hx
  have hxF : x < F := List.mem_range.mp hxm
  have hyF : y = F := by
    simp at hy
    omega
  omega

/-- C9: in every run of the sync-apply workflow (modelled as the event list the
endpoint writes to the stream, with the collaborators' outcomes taken as inputs:
whether the preparatory steps fail early, the folder-rename operation count, whether
a labels database is present, the per-label change flags, and the point at which the
export loop stops), the progress events form a single (current, total) counter: the
start event fixes total = renameOpCount + labelOpCount up front, every progress
event carries that same total, and the current values are strictly increasing across
both the rename phase and the label phase, never resetting between phases. -/
theorem C9_progress_monotone (earlyFail : Bool) (folderOps : Nat) (hasLabels : Bool)
    (flags : List Bool) (exportStop : Nat) :
    (earlyFail = false →
      (applyStreamEvents earlyFail folderOps hasLabels flags exportStop).head? =
        some (SyncEvent.start (folderOps + (if hasLabels then flags.length else 0))
          folderOps (if hasLabels then flags.length else 0))) ∧
    (∀ c t, SyncEvent.progress c t ∈
        applyStreamEvents earlyFail folderOps hasLabels flags exportStop →
      t = folderOps + (if hasLabels then flags.length else 0)) ∧
    List.Chain' (fun a b => a < b)
      (progressCurrents (applyStreamEvents earlyFail folderOps hasLabels flags exportStop)) := by
  cases earlyFail with
  | true =>
    refine ⟨?_, ?_, ?_⟩
    · intro h
      exact Bool.noConfusion h
    · intro c t hmem
      simp [applyStreamEvents] at hmem
    · simp [applyStreamEvents, progressCurrents]
  | false =>
    unfold applyStreamEvents
    rw [if_neg (by simp)]
    refine ⟨fun _ => rfl, ?_, ?_⟩
    · intro c t hmem
      simp only [List.mem_append] at hmem
      rcases hmem with ((h | h) | h) | h
      · exact SyncEvent.noConfusion (List.mem_singleton.mp h)
      · rcases List.mem_map.mp h with ⟨i, _, hi⟩
        cases hi
        rfl
      · cases hasLabels with
        | true =>
          rw [if_pos rfl] at h
          rcases List.mem_cons.mp h with h2 | h2
          · cases h2
            rfl
          · rcases List.mem_map.mp h2 with ⟨x, _, hx⟩
            cases hx
            rfl
        | false =>
          rw [if_neg (by simp)] at h
          exact absurd h (List.not_mem_nil _)
      · exact SyncEvent.noConfusion (List.mem_singleton.mp h)
    · rw [List.append_assoc, List.append_assoc]
      have hstart : ∀ T F L, progressCurrents [SyncEvent.start T F L] = [] :=
        fun T F L => rfl
      have hcomplete : progressCurrents [SyncEvent.complete] = [] := rfl
      rw [progressCurrents_append, hstart, List.nil_append,
        progressCurrents_append, progressCurrents_range,
        progressCurrents_append, hcomplete, List.append_nil]
      cases hasLabels with
      | false =>
        rw [if_neg (by simp)]
        have hnil : progressCurrents ([] : List SyncEvent) = [] := rfl
        rw [hnil, List.append_nil]
        exact List.Pairwise.chain' (List.pairwise_lt_range folderOps)
      | true =>
        rw [if_pos rfl]
        rw [progressCurrents_labelPhase]
        obtain ⟨hch, hpos⟩ := exportCurrentsAux_chain flags 0
        have hpre := List.take_prefix exportStop (exportCurrents flags)
        have hcht : List.Chain' (fun a b => a < b)
            ((exportCurrents flags).take exportStop) :=
          List.Chain'.prefix hch hpre
        refine chain_currents folderOps _ hcht ?_
        intro x hx
        have hmem : x ∈ exportCurrents flags := hpre.mem hx
        exact hpos x hmem

/-- Witness for C9 at a concrete run: two folder operations, labels present with
three flags of which two changed, export stopped after two writes. -/
theorem C9_progress_monotone_witness :
    ((applyStreamEvents false 2 true [true, false, true] 2).head? =
      some (SyncEvent.start 5 2 3)) ∧
    List.Chain' (fun a b => a < b)
      (progressCurrents (applyStreamEvents false 2 true [true, false, true] 2)) := by
  have h := C9_progress_monotone false 2 true [true, false, true] 2
  refine ⟨?_, h.2.2⟩
  simpa using h.1 rfl


/-! ## Claim C1: reads through the builders

addEntry and deleteEntry rebuild the container into a freshly allocated
0xFF-filled buffer: header copy, table writes, image-slot copies.  The
lemmas below locate each byte of the result. -/

theorem Buf.read32_copy_of_lt (src dst : Buf) (d s e off : Nat) (h : off + 4 ≤ d) :
    (Buf.copy src dst d s e).read32 off = dst.read32 off := by
  simp only [Buf.read32]
  rw [Buf.get_copy_of_lt src dst d s e off (by omega),
    Buf.get_copy_of_lt src dst d s e (off + 1) (by omega),
    Buf.get_copy_of_lt src dst d s e (off + 2) (by omega),
    Buf.get_copy_of_lt src dst d s e (off + 3) (by omega)]

theorem Buf.read32_copy_of_ge (src dst : Buf) (d s e off : Nat)
    (h : d + Buf.copyLen src dst d s e ≤ off) :
    (Buf.copy src dst d s e).read32 off = dst.read32 off := by
  simp only [Buf.read32]
  rw [Buf.get_copy_of_ge src dst d s e off (by omega),
    Buf.get_copy_of_ge src dst d s e (off + 1) (by omega),
    Buf.get_copy_of_ge src dst d s e (off + 2) (by omega),
    Buf.get_copy_of_ge src dst d s e (off + 3) (by omega)]

/-- Bytes below the first destination slot are untouched by copySlots. -/
theorem copySlots_get_lt (src : Buf) (n : Nat) : ∀ (dst : Buf) (s d off : Nat),
    off < DATA_START + d * IMAGE_SLOT_SIZE →
    (copySlots src dst s d n).get off = dst.get off := by
  induction n with
  | zero => intro dst s d off h; rfl
  | succ n ih =>
    intro dst s d off h
    have hmono : DATA_START + d * IMAGE_SLOT_SIZE ≤ DATA_START + (d + 1) * IMAGE_SLOT_SIZE :=
      Nat.add_le_add_left (Nat.mul_le_mul_right _ (Nat.le_succ d)) _
    rw [copySlots, ih _ _ _ _ (by omega), Buf.get_copy_of_lt _ _ _ _ _ _ h]

/-- Table-region (below DATA_START) 32-bit reads are untouched by copySlots. -/
theorem copySlots_read32_lt (src : Buf) (n : Nat) (dst : Buf) (s d off : Nat)
    (h : off + 4 ≤ DATA_START) :
    (copySlots src dst s d n).read32 off = dst.read32 off := by
  simp only [Buf.read32]
  rw [copySlots_get_lt src n dst s d off (by omega),
    copySlots_get_lt src n dst s d (off + 1) (by omega),
    copySlots_get_lt src n dst s d (off + 2) (by omega),
    copySlots_get_lt src n dst s d (off + 3) (by omega)]

/-- Bytes outside the written table range are untouched by writeTable. -/
theorem writeTable_get_out (ids : List Nat) : ∀ (b : Buf) (pos j : Nat),
    (j < ID_TABLE_START + pos * 4 ∨ ID_TABLE_START + (pos + ids.length) * 4 ≤ j) →
    (writeTable b pos ids).get j = b.get j := by
  induction ids with
  | nil => intro b pos j h; rfl
  | cons x rest ih =>
    intro b pos j h
    simp only [List.length_cons] at h
    rw [writeTable, ih _ (pos + 1) j (by omega), Buf.get_write32_out _ _ _ _ (by omega)]

theorem writeTable_read32_out (ids : List Nat) (b : Buf) (pos off : Nat)
    (h : off + 4 ≤ ID_TABLE_START + pos * 4 ∨
      ID_TABLE_START + (pos + ids.length) * 4 ≤ off) :
    (writeTable b pos ids).read32 off = b.read32 off := by
  simp only [Buf.read32]
  rw [writeTable_get_out ids b pos off (by omega),
    writeTable_get_out ids b pos (off + 1) (by omega),
    writeTable_get_out ids b pos (off + 2) (by omega),
    writeTable_get_out ids b pos (off + 3) (by omega)]

theorem writeTable_tableVal_lt (ids : List Nat) (b : Buf) (pos p : Nat) (h : p < pos) :
    tableVal (writeTable b pos ids) p = tableVal b p := by
  unfold tableVal
  exact writeTable_read32_out ids b pos _ (by left; omega)

theorem writeTable_tableVal_ge (ids : List Nat) (b : Buf) (pos p : Nat)
    (h : pos + ids.length ≤ p) :
    tableVal (writeTable b pos ids) p = tableVal b p := by
  unfold tableVal
  exact writeTable_read32_out ids b pos _ (by right; omega)

/-- Table slots inside the written range hold the written ids. -/
theorem writeTable_tableVal_mem (ids : List Nat) : ∀ (b : Buf) (pos p : Nat),
    pos ≤ p → p < pos + ids.length → (∀ x ∈ ids, x < 4294967296) →
    tableVal (writeTable b pos ids) p = ids.getD (p - pos) 0 := by
  induction ids with
  | nil => intro b pos p h1 h2 _; simp only [List.length_nil] at h2; omega
  | cons x rest ih =>
    intro b pos p h1 h2 hb
    rw [writeTable]
    by_cases hp : p = pos
    · subst hp
      rw [writeTable_tableVal_lt rest _ _ _ (by omega)]
      simp only [Nat.sub_self, List.getD_cons_zero]
      unfold tableVal
      exact Buf.read32_write32_self b _ x (hb x (by simp))
    · have h1' : pos + 1 ≤ p := by omega
      rw [ih _ (pos + 1) p h1' (by simp only [List.length_cons] at h2; omega)
        (fun y hy => hb y (by simp [hy]))]
      have hpp : p - pos = (p - (pos + 1)) + 1 := by omega
      rw [hpp, List.getD_cons_succ]

/-- Every table slot of a fill-allocated buffer reads as the terminator. -/
theorem tableVal_alloc (n p : Nat) : tableVal (Buf.alloc n PADDING_FILL) p = 0xffffffff := by
  unfold tableVal Buf.read32
  rw [Buf.get_alloc, Buf.get_alloc, Buf.get_alloc, Buf.get_alloc]
  decide

theorem headerCopy_copyLen (data b0 : Buf) (h1 : HEADER_SIZE ≤ data.size)
    (h2 : HEADER_SIZE ≤ b0.size) :
    Buf.copyLen data b0 0 0 HEADER_SIZE = HEADER_SIZE := by
  unfold Buf.copyLen
  omega

/-- The header copy of the builders reproduces the source header bytes. -/
theorem headerCopy_get (data b0 : Buf) (j : Nat) (hj : j < HEADER_SIZE)
    (h1 : HEADER_SIZE ≤ data.size) (h2 : HEADER_SIZE ≤ b0.size) :
    (Buf.copy data b0 0 0 HEADER_SIZE).get j = data.get j := by
  rw [Buf.get_copy_of_mem _ _ _ _ _ _ (Nat.zero_le j)
    (by rw [headerCopy_copyLen data b0 h1 h2]; omega)]
  simp

/-- 32-bit reads at or above HEADER_SIZE see through the header copy. -/
theorem headerCopy_read32_ge (data b0 : Buf) (off : Nat) (hoff : HEADER_SIZE ≤ off) :
    (Buf.copy data b0 0 0 HEADER_SIZE).read32 off = b0.read32 off := by
  apply Buf.read32_copy_of_ge
  have hle : Buf.copyLen data b0 0 0 HEADER_SIZE ≤ HEADER_SIZE := by
    unfold Buf.copyLen; omega
  omega

/-- A byte of the first destination slot of a nonempty slot-0-aligned
copySlots run comes from source slot 0. -/
theorem copySlots_get_first (src dst : Buf) (n j : Nat)
    (hn : 1 ≤ n) (hj : j < IMAGE_SLOT_SIZE)
    (hsrc : DATA_START + IMAGE_SLOT_SIZE ≤ src.size)
    (hdst : DATA_START + IMAGE_SLOT_SIZE ≤ dst.size) :
    (copySlots src dst 0 0 n).get (DATA_START + j) = src.get (DATA_START + j) := by
  obtain ⟨m, rfl⟩ : ∃ m, n = m + 1 := ⟨n - 1, by omega⟩
  rw [copySlots]
  rw [copySlots_get_lt src m _ (0 + 1) (0 + 1) _ (by omega)]
  have hcl : Buf.copyLen src dst (DATA_START + 0 * IMAGE_SLOT_SIZE)
      (DATA_START + 0 * IMAGE_SLOT_SIZE)
      (DATA_START + 0 * IMAGE_SLOT_SIZE + IMAGE_SLOT_SIZE) = IMAGE_SLOT_SIZE := by
    unfold Buf.copyLen; omega
  have hmem := Buf.get_copy_of_mem src dst (DATA_START + 0 * IMAGE_SLOT_SIZE)
    (DATA_START + 0 * IMAGE_SLOT_SIZE)
    (DATA_START + 0 * IMAGE_SLOT_SIZE + IMAGE_SLOT_SIZE) (DATA_START + j)
    (by omega) (by rw [hcl]; omega)
  have harg : DATA_START + 0 * IMAGE_SLOT_SIZE +
      (DATA_START + j - (DATA_START + 0 * IMAGE_SLOT_SIZE)) = DATA_START + j := by omega
  rw [harg] at hmem
  exact hmem

theorem copySlots_read32_first (src dst : Buf) (n : Nat)
    (hn : 1 ≤ n)
    (hsrc : DATA_START + IMAGE_SLOT_SIZE ≤ src.size)
    (hdst : DATA_START + IMAGE_SLOT_SIZE ≤ dst.size) :
    (copySlots src dst 0 0 n).read32 DATA_START = src.read32 DATA_START := by
  have hc := constVals
  have h0 := copySlots_get_first src dst n 0 hn (by omega) hsrc hdst
  have h1 := copySlots_get_first src dst n 1 hn (by omega) hsrc hdst
  have h2 := copySlots_get_first src dst n 2 hn (by omega) hsrc hdst
  have h3 := copySlots_get_first src dst n 3 hn (by omega) hsrc hdst
  rw [Nat.add_zero] at h0
  simp only [Buf.read32]
  rw [h0, h1, h2, h3]


/-- Table-slot reads below slot 4096 are untouched by copySlots. -/
theorem tableVal_copySlots (src : Buf) (n : Nat) (dst : Buf) (s d p : Nat)
    (hp : p ≤ 4095) :
    tableVal (copySlots src dst s d n) p = tableVal dst p := by
  unfold tableVal
  apply copySlots_read32_lt
  have hcv := constVals
  omega

/-- Table-slot reads below slot 4096 are untouched by a copy targetting the
data section. -/
theorem tableVal_copy_data (src dst : Buf) (d s e p : Nat)
    (hd : DATA_START ≤ d) (hp : p ≤ 4095) :
    tableVal (Buf.copy src dst d s e) p = tableVal dst p := by
  unfold tableVal
  apply Buf.read32_copy_of_lt
  have hcv := constVals
  omega

/-- Table-slot reads are untouched by the header copy. -/
theorem tableVal_headerCopy (data b0 : Buf) (p : Nat) :
    tableVal (Buf.copy data b0 0 0 HEADER_SIZE) p = tableVal b0 p := by
  unfold tableVal
  apply headerCopy_read32_ge
  have hcv := constVals
  omega

theorem tableVal_write32_ne (b : Buf) (q v p : Nat) (hne : p ≠ q) :
    tableVal (b.write32 (ID_TABLE_START + q * 4) v) p = tableVal b p := by
  unfold tableVal
  apply Buf.read32_write32_out
  omega

theorem tableVal_write32_self (b : Buf) (q v : Nat) (hv : v < 4294967296) :
    tableVal (b.write32 (ID_TABLE_START + q * 4) v) q = v :=
  Buf.read32_write32_self b _ v hv

theorem getD_take (l : List Nat) (n p : Nat) (hp : p < n) :
    (l.take n).getD p 0 = l.getD p 0 := by
  rw [List.getD_eq_getElem?_getD, List.getD_eq_getElem?_getD, List.getElem?_take, if_pos hp]

theorem getD_drop (l : List Nat) (n p : Nat) :
    (l.drop n).getD p 0 = l.getD (n + p) 0 := by
  rw [List.getD_eq_getElem?_getD, List.getD_eq_getElem?_getD, List.getElem?_drop]

/-- The ID table of the buffer built by addEntry: the old ids with the new
one spliced in at the insertion index, terminator after them, as long as
the rebuilt table stays inside the table region (positions up to 4095). -/
theorem addBuild_tableVal (data : Buf) (L : List Nat) (i c : Nat) (slot : Buf)
    (p : Nat) (hp : p ≤ 4095) (hi : i ≤ L.length) (hL : L.length ≤ 4095)
    (hbound : ∀ x ∈ L, x < 4294967296) (hc : c < 4294967296) :
    tableVal (addBuild data L i c slot) p =
      if p < i then L.getD p 0
      else if p = i then c
      else if p ≤ L.length then L.getD (p - 1) 0
      else 0xffffffff := by
  have hcv := constVals
  simp only [addBuild]
  rw [tableVal_copySlots _ _ _ _ _ _ hp,
    tableVal_copy_data _ _ _ _ _ _ (by omega) hp,
    tableVal_copySlots _ _ _ _ _ _ hp]
  by_cases h1 : p < i
  · rw [if_pos h1]
    rw [writeTable_tableVal_lt _ _ _ _ (by omega),
      tableVal_write32_ne _ _ _ _ (by omega),
      writeTable_tableVal_mem (L.take i) _ 0 p (Nat.zero_le p)
        (by rw [List.length_take]; omega)
        (fun x hx => hbound x (List.take_subset _ _ hx)),
      Nat.sub_zero, getD_take _ _ _ h1]
  · rw [if_neg h1]
    by_cases h2 : p = i
    · rw [if_pos h2]
      subst h2
      rw [writeTable_tableVal_lt _ _ _ _ (by omega)]
      exact tableVal_write32_self _ _ _ hc
    · rw [if_neg h2]
      by_cases h3 : p ≤ L.length
      · rw [if_pos h3]
        rw [writeTable_tableVal_mem (L.drop i) _ (i + 1) p (by omega)
          (by rw [List.length_drop]; omega)
          (fun x hx => hbound x (List.drop_subset _ _ hx)),
          getD_drop]
        congr 1
        omega
      · rw [if_neg h3]
        rw [writeTable_tableVal_ge _ _ _ _ (by rw [List.length_drop]; omega),
          tableVal_write32_ne _ _ _ _ (by omega),
          writeTable_tableVal_ge _ _ _ _ (by rw [List.length_take]; omega),
          tableVal_headerCopy]
        exact tableVal_alloc _ _

/-- The header bytes of the buffer built by addEntry are the source's. -/
theorem addBuild_get_header (data : Buf) (L : List Nat) (i c : Nat) (slot : Buf)
    (j : Nat) (hj : j < HEADER_SIZE) (hsz : HEADER_SIZE ≤ data.size) :
    (addBuild data L i c slot).get j = data.get j := by
  have hcv := constVals
  simp only [addBuild]
  rw [copySlots_get_lt _ _ _ _ _ _ (by omega),
    Buf.get_copy_of_lt _ _ _ _ _ _ (by omega),
    copySlots_get_lt _ _ _ _ _ _ (by omega),
    writeTable_get_out _ _ _ _ (by left; omega),
    Buf.get_write32_out _ _ _ _ (by left; omega),
    writeTable_get_out _ _ _ _ (by left; omega),
    headerCopy_get data _ j hj hsz (by rw [Buf.size_alloc]; omega)]

/-- The ID table of the buffer built by deleteEntry: the old ids with the
deleted one removed, terminator after them. -/
theorem deleteBuild_tableVal (data : Buf) (L : List Nat) (index p : Nat)
    (hp : p ≤ 4095) (hlen : L.length ≤ 4096)
    (hbound : ∀ x ∈ L, x < 4294967296) :
    tableVal (deleteBuild data L index) p =
      if p < (L.eraseIdx index).length then (L.eraseIdx index).getD p 0
      else 0xffffffff := by
  have hcv := constVals
  simp only [deleteBuild]
  rw [tableVal_copySlots _ _ _ _ _ _ hp, tableVal_copySlots _ _ _ _ _ _ hp]
  by_cases h1 : p < (L.eraseIdx index).length
  · rw [if_pos h1]
    rw [writeTable_tableVal_mem (L.eraseIdx index) _ 0 p (Nat.zero_le p) (by omega)
      (fun x hx => hbound x (List.eraseIdx_subset _ _ hx)),
      Nat.sub_zero]
  · rw [if_neg h1]
    rw [writeTable_tableVal_ge _ _ _ _ (by omega), tableVal_headerCopy]
    exact tableVal_alloc _ _

/-- The header bytes of the buffer built by deleteEntry are the source's. -/
theorem deleteBuild_get_header (data : Buf) (L : List Nat) (index j : Nat)
    (hj : j < HEADER_SIZE) (hsz : HEADER_SIZE + IMAGE_SLOT_SIZE ≤ data.size) :
    (deleteBuild data L index).get j = data.get j := by
  have hcv := constVals
  simp only [deleteBuild]
  rw [copySlots_get_lt _ _ _ _ _ _ (by omega),
    copySlots_get_lt _ _ _ _ _ _ (by omega),
    writeTable_get_out _ _ _ _ (by left; omega),
    headerCopy_get data _ j hj (by omega) (by rw [Buf.size_alloc]; omega)]

theorem slotCount_of_size (b : Buf) (s : Nat)
    (h : b.size = DATA_START + s * IMAGE_SLOT_SIZE) : slotCount b = s := by
  unfold slotCount
  rw [h, Nat.add_sub_cancel_left]
  have hcv := constVals
  exact Nat.mul_div_cancel s (by omega)


/-! ## The table invariant -/

/-- Invariant of containers reachable by the rebuild operations: valid
header bytes, slot-aligned size, the id list in the table prefix followed
by a terminator, ids strictly ascending and below the reserved terminator
value. -/
structure GoodTable (b : Buf) (L : List Nat) : Prop where
  header : ∀ j, j < HEADER_SIZE → b.get j = createHeader.get j
  size_eq : b.size = DATA_START + slotCount b * IMAGE_SLOT_SIZE
  len_le : L.length ≤ slotCount b
  cap : slotCount b ≤ TABLE_CAPACITY
  vals : ∀ p, p < L.length → tableVal b p = L.getD p 0
  term : L.length < slotCount b → tableVal b L.length = 0xffffffff
  sorted : List.Pairwise (fun a b => a < b) L
  bounded : ∀ x ∈ L, x < 4294967295

theorem goodTable_createEmpty : GoodTable createEmptyLabelsDb [] := by
  have hcv := constVals
  refine ⟨createEmpty_get_header, ?_, ?_, ?_, ?_, ?_, List.Pairwise.nil, ?_⟩
  · rw [createEmptyLabelsDb_size, slotCount_createEmpty]
    omega
  · rw [slotCount_createEmpty]
    simp
  · rw [slotCount_createEmpty]
    omega
  · intro p hp
    simp at hp
  · rw [slotCount_createEmpty]
    omega
  · intro x hx
    simp at hx

theorem goodTable_size (b : Buf) (L : List Nat) (hg : GoodTable b L) :
    DATA_START ≤ b.size := by
  rw [hg.size_eq]
  omega

theorem goodTable_verify (b : Buf) (L : List Nat) (hg : GoodTable b L) :
    verifyHeader b = Except.ok () := by
  apply verifyHeader_of_header_eq b ?_ hg.header
  have h := goodTable_size b L hg
  have hcv := constVals
  omega

/-- A container satisfying the invariant parses as exactly its id list. -/
theorem parse_of_goodTable (b : Buf) (L : List Nat) (hg : GoodTable b L) :
    parseLabelsDb b =
      Except.ok ⟨L.length, entriesOfTable b L.length, mapOfTable b L.length⟩ := by
  apply parseLabelsDb_char b L.length (goodTable_verify b L hg) (goodTable_size b L hg)
    hg.len_le
  · intro j hj
    rw [hg.vals j hj]
    have hmem : L.getD j 0 ∈ L := by
      rw [getD_eq_getElem_of_lt _ _ hj]
      exact List.getElem_mem _
    have hb := hg.bounded _ hmem
    omega
  · exact hg.term

theorem goodTable_parse_db (b : Buf) (L : List Nat) (db : LabelsDatabase)
    (hg : GoodTable b L) (hp : parseLabelsDb b = Except.ok db) :
    db = ⟨L.length, entriesOfTable b L.length, mapOfTable b L.length⟩ :=
  (Except.ok.inj ((parse_of_goodTable b L hg).symm.trans hp)).symm

theorem entriesOfTable_map_cartId (b : Buf) (L : List Nat)
    (hvals : ∀ p, p < L.length → tableVal b p = L.getD p 0) :
    (entriesOfTable b L.length).map LabelEntry.cartId = L := by
  apply List.ext_getElem
  · simp [entriesOfTable]
  · intro n h1 h2
    simp only [entriesOfTable, List.map_map, List.getElem_map, List.getElem_range,
      Function.comp, entryOfTable]
    rw [hvals n h2, getD_eq_getElem_of_lt _ _ h2]

theorem goodTable_not_mem (b : Buf) (L : List Nat) (hg : GoodTable b L) (c : Nat)
    (hhas : mapHas (mapOfTable b L.length) c = false) : c ∉ L := by
  intro hmem
  rw [List.mem_iff_getElem] at hmem
  obtain ⟨j, hj, hjx⟩ := hmem
  have h1 := mapOfTable_has b L.length j hj
  rw [hg.vals j hj, getD_eq_getElem_of_lt _ _ hj, hjx] at h1
  rw [h1] at hhas
  exact Bool.noConfusion hhas

/-! ## The insertion scan on id lists -/

/-- The insertion scan of addEntry, on the cartId list alone. -/
def idInsert : List Nat → Nat → Nat → Nat
  | [], _, i => i
  | x :: rest, c, i => if x > c then i else idInsert rest c (i + 1)

theorem findInsertIndex_eq_idInsert (es : List LabelEntry) (c : Nat) : ∀ i0,
    findInsertIndex es c i0 = idInsert (es.map LabelEntry.cartId) c i0 := by
  induction es with
  | nil => intro i0; rfl
  | cons e rest ih =>
    intro i0
    simp only [findInsertIndex, List.map_cons, idInsert]
    by_cases h : e.cartId > c
    · rw [if_pos h, if_pos h]
    · rw [if_neg h, if_neg h, ih]

theorem idInsert_shift (L : List Nat) (c : Nat) : ∀ i0,
    idInsert L c i0 = i0 + idInsert L c 0 := by
  induction L with
  | nil => intro i0; simp [idInsert]
  | cons x rest ih =>
    intro i0
    simp only [idInsert]
    by_cases h : x > c
    · rw [if_pos h, if_pos h]
      omega
    · rw [if_neg h, if_neg h, ih (i0 + 1), ih 1]
      omega

theorem idInsert_le_length (L : List Nat) (c : Nat) : idInsert L c 0 ≤ L.length := by
  induction L with
  | nil => simp [idInsert]
  | cons x rest ih =>
    simp only [idInsert, List.length_cons]
    by_cases h : x > c
    · rw [if_pos h]
      omega
    · rw [if_neg h, idInsert_shift]
      omega

theorem idInsert_take (L : List Nat) (c : Nat) :
    ∀ x ∈ L.take (idInsert L c 0), x ≤ c := by
  induction L with
  | nil => simp
  | cons y rest ih =>
    simp only [idInsert]
    by_cases h : y > c
    · rw [if_pos h]
      simp
    · rw [if_neg h, idInsert_shift]
      intro x hx
      have hco : (1 : Nat) + idInsert rest c 0 = idInsert rest c 0 + 1 := Nat.add_comm _ _
      rw [hco, List.take_succ_cons] at hx
      rcases List.mem_cons.mp hx with h1 | h1
      · subst h1
        omega
      · exact ih x h1

theorem idInsert_at (L : List Nat) (c : Nat) :
    idInsert L c 0 < L.length → c < L.getD (idInsert L c 0) 0 := by
  induction L with
  | nil => intro h; simp at h
  | cons y rest ih =>
    simp only [idInsert, List.length_cons]
    by_cases h : y > c
    · rw [if_pos h]
      intro _
      simpa using h
    · rw [if_neg h, idInsert_shift]
      intro hlt
      have hco : (1 : Nat) + idInsert rest c 0 = idInsert rest c 0 + 1 := Nat.add_comm _ _
      rw [hco, List.getD_cons_succ]
      exact ih (by omega)

theorem idInsert_all_le (L : List Nat) (c : Nat) (h : ∀ x ∈ L, ¬ x > c) :
    idInsert L c 0 = L.length := by
  induction L with
  | nil => rfl
  | cons y rest ih =>
    simp only [idInsert, List.length_cons]
    rw [if_neg (h y (by simp)), idInsert_shift,
      ih (fun x hx => h x (by simp [hx]))]
    omega

/-! ## Sorted splices -/

theorem sorted_drop_gt (L : List Nat) (c i : Nat)
    (hsort : List.Pairwise (fun a b => a < b) L)
    (hhead : i < L.length → c < L.getD i 0) :
    ∀ x ∈ L.drop i, c < x := by
  intro x hx
  rw [List.mem_iff_getElem] at hx
  obtain ⟨j, hj, hjx⟩ := hx
  have hlen : j < L.length - i := by
    rw [List.length_drop] at hj
    exact hj
  have hij : i + j < L.length := by omega
  have hjx2 : L.get ⟨i + j, hij⟩ = x := by
    rw [← hjx]
    simp [List.getElem_drop]
  have hhead2 : c < L.get ⟨i, by omega⟩ := by
    have hh := hhead (by omega)
    rwa [getD_eq_getElem_of_lt _ _ (by omega)] at hh
  rcases Nat.eq_zero_or_pos j with h0 | h0
  · rw [← hjx2]
    subst h0
    exact hhead2
  · rw [← hjx2]
    exact lt_trans hhead2
      (List.pairwise_iff_getElem.mp hsort i (i + j) (by omega) hij (by omega))

theorem splice_getD (L : List Nat) (c i p : Nat) (hi : i ≤ L.length) :
    (L.take i ++ c :: L.drop i).getD p 0 =
      if p < i then L.getD p 0 else if p = i then c else L.getD (p - 1) 0 := by
  have hlt : (L.take i).length = i := by
    rw [List.length_take]
    omega
  by_cases h1 : p < i
  · rw [if_pos h1, List.getD_append _ _ _ _ (by omega), getD_take _ _ _ h1]
  · rw [if_neg h1]
    by_cases h2 : p = i
    · subst h2
      rw [if_pos rfl, List.getD_append_right _ _ _ _ (by omega), hlt, Nat.sub_self,
        List.getD_cons_zero]
    · rw [if_neg h2, List.getD_append_right _ _ _ _ (by omega), hlt]
      have hsp : p - i = (p - i - 1) + 1 := by omega
      rw [hsp, List.getD_cons_succ, getD_drop]
      congr 1
      omega

theorem splice_length (L : List Nat) (c i : Nat) (hi : i ≤ L.length) :
    (L.take i ++ c :: L.drop i).length = L.length + 1 := by
  rw [List.length_append, List.length_take, List.length_cons, List.length_drop]
  omega

theorem splice_sorted (L : List Nat) (c i : Nat)
    (hsort : List.Pairwise (fun a b => a < b) L)
    (htake : ∀ x ∈ L.take i, x < c) (hdrop : ∀ x ∈ L.drop i, c < x) :
    List.Pairwise (fun a b => a < b) (L.take i ++ c :: L.drop i) := by
  rw [List.pairwise_append]
  refine ⟨hsort.sublist (List.take_sublist _ _), ?_, ?_⟩
  · rw [List.pairwise_cons]
    exact ⟨hdrop, hsort.sublist (List.drop_sublist _ _)⟩
  · intro a ha b hb
    rcases List.mem_cons.mp hb with h | h
    · subst h
      exact htake a ha
    · exact lt_trans (htake a ha) (hdrop b h)

/-! ## Step lemmas -/

/-- A successful addEntry whose result still fits the table region
preserves the invariant; the id list gains the new id at its sorted
position, except that adding the reserved terminator id leaves the
visible id list unchanged. -/
theorem addEntry_goodTable (b : Buf) (L : List Nat) (c : Nat) (rgba : List Nat)
    (b2 : Buf) (hg : GoodTable b L) (h : addEntry b c rgba = Except.ok b2)
    (hcap2 : slotCount b2 ≤ TABLE_CAPACITY) :
    GoodTable b2 (if c = 4294967295 then L
      else L.take (idInsert L c 0) ++ c :: L.drop (idInsert L c 0)) ∧
    slotCount b2 = slotCount b + 1 := by
  have hcv := constVals
  obtain ⟨db, hp, hhas, hcle, hrlen, hb2⟩ := addEntry_ok_elim b c rgba b2 h
  have hdb := goodTable_parse_db b L db hg hp
  have hent : db.entries = entriesOfTable b L.length := by rw [hdb]
  have hmap : db.idToIndex = mapOfTable b L.length := by rw [hdb]
  have hmapL : db.entries.map LabelEntry.cartId = L := by
    rw [hent]
    exact entriesOfTable_map_cartId b L hg.vals
  have hnotmem : c ∉ L := goodTable_not_mem b L hg c (by rw [← hmap]; exact hhas)
  have hii : findInsertIndex db.entries c 0 = idInsert L c 0 := by
    rw [findInsertIndex_eq_idInsert, hmapL]
  rw [hmapL, hii] at hb2
  subst hb2
  have hsz2 := addBuild_size b L (idInsert L c 0) c (imageSlotOf rgba)
  have hsc2 : slotCount (addBuild b L (idInsert L c 0) c (imageSlotOf rgba)) =
      slotCount b + 1 := by
    apply slotCount_of_size
    rw [hsz2, hg.size_eq]
    ring
  rw [hsc2] at hcap2
  have hscb : slotCount b ≤ 4095 := by omega
  have hLlen : L.length ≤ 4095 := by
    have hle := hg.len_le
    omega
  have hi_le : idInsert L c 0 ≤ L.length := idInsert_le_length L c
  have hboundL : ∀ x ∈ L, x < 4294967296 := fun x hx => by
    have hb := hg.bounded x hx
    omega
  have hHsz : HEADER_SIZE ≤ b.size := by
    have hds := goodTable_size b L hg
    omega
  refine ⟨?_, hsc2⟩
  by_cases hcmax : c = 4294967295
  · rw [if_pos hcmax]
    have hieq : idInsert L c 0 = L.length :=
      idInsert_all_le L c (fun x hx => by
        have hb := hg.bounded x hx
        omega)
    refine ⟨?_, ?_, ?_, ?_, ?_, ?_, hg.sorted, hg.bounded⟩
    · intro j hj
      rw [addBuild_get_header _ _ _ _ _ j hj hHsz, hg.header j hj]
    · rw [hsz2, hsc2, hg.size_eq]
      ring
    · rw [hsc2]
      have hle := hg.len_le
      omega
    · rw [hsc2]
      omega
    · intro p hp
      rw [addBuild_tableVal b L _ _ _ p (by omega) hi_le hLlen hboundL (by omega),
        if_pos (by omega)]
    · intro _
      rw [addBuild_tableVal b L _ _ _ L.length (by omega) hi_le hLlen hboundL (by omega),
        if_neg (by omega), if_pos (by omega), hcmax]
  · rw [if_neg hcmax]
    have hclt : c < 4294967295 := by omega
    have hlen2 := splice_length L c (idInsert L c 0) hi_le
    have htake : ∀ x ∈ L.take (idInsert L c 0), x < c := fun x hx => by
      have h1 := idInsert_take L c x hx
      have h2 : x ≠ c := fun he => hnotmem (he ▸ List.take_subset _ _ hx)
      omega
    have hdrop : ∀ x ∈ L.drop (idInsert L c 0), c < x :=
      sorted_drop_gt L c (idInsert L c 0) hg.sorted (idInsert_at L c)
    refine ⟨?_, ?_, ?_, ?_, ?_, ?_, splice_sorted L c _ hg.sorted htake hdrop, ?_⟩
    · intro j hj
      rw [addBuild_get_header _ _ _ _ _ j hj hHsz, hg.header j hj]
    · rw [hsz2, hsc2, hg.size_eq]
      ring
    · rw [hlen2, hsc2]
      have hle := hg.len_le
      omega
    · rw [hsc2]
      omega
    · intro p hp
      rw [hlen2] at hp
      rw [addBuild_tableVal b L _ _ _ p (by omega) hi_le hLlen hboundL (by omega),
        splice_getD L c _ p hi_le]
      split_ifs <;> first | rfl | omega
    · intro hlt
      rw [hlen2, hsc2] at hlt
      rw [hlen2]
      rw [addBuild_tableVal b L _ _ _ (L.length + 1) (by omega) hi_le hLlen hboundL
        (by omega), if_neg (by omega), if_neg (by omega), if_neg (by omega)]
    · intro x hx
      rcases List.mem_append.mp hx with h1 | h1
      · exact hg.bounded x (List.take_subset _ _ h1)
      · rcases List.mem_cons.mp h1 with h2 | h2
        · subst h2
          omega
        · exact hg.bounded x (List.drop_subset _ _ h2)

/-- A successful deleteEntry preserves the invariant; the id list loses
the entry at the found index. -/
theorem deleteEntry_goodTable (b : Buf) (L : List Nat) (c : Nat) (b2 : Buf)
    (hg : GoodTable b L) (h : deleteEntry b c = Except.ok b2) :
    (∃ index, index < L.length ∧ GoodTable b2 (L.eraseIdx index)) ∧
    slotCount b2 = slotCount b - 1 ∧ 1 ≤ slotCount b := by
  have hcv := constVals
  obtain ⟨db, index, hp, hget, hb2⟩ := deleteEntry_ok_elim b c b2 h
  have hdb := goodTable_parse_db b L db hg hp
  have hmap : db.idToIndex = mapOfTable b L.length := by rw [hdb]
  have hmapL : db.entries.map LabelEntry.cartId = L := by
    rw [hdb]
    exact entriesOfTable_map_cartId b L hg.vals
  rw [hmap] at hget
  obtain ⟨hidx, hval⟩ := mapGet_mapOfTable_some b L.length c index hget
  rw [hmapL] at hb2
  subst hb2
  have hsb : 1 ≤ slotCount b := by
    have hle := hg.len_le
    omega
  obtain ⟨t, ht⟩ : ∃ t, slotCount b = t + 1 := ⟨slotCount b - 1, by omega⟩
  have hmul : (t + 1) * IMAGE_SLOT_SIZE = t * IMAGE_SLOT_SIZE + IMAGE_SLOT_SIZE := by
    ring
  have hbsz : b.size = DATA_START + t * IMAGE_SLOT_SIZE + IMAGE_SLOT_SIZE := by
    rw [hg.size_eq, ht, hmul]
    omega
  have hsz2 := deleteBuild_size b L index
  have hsc2 : slotCount (deleteBuild b L index) = slotCount b - 1 := by
    apply slotCount_of_size
    rw [hsz2, hbsz, ht]
    simp only [Nat.add_sub_cancel]
  have hel : (L.eraseIdx index).length = L.length - 1 := by
    rw [List.length_eraseIdx]
    simp [hidx]
  have hLlen : L.length ≤ 4096 := by
    have hle := hg.len_le
    have hcp := hg.cap
    omega
  have hboundL : ∀ x ∈ L, x < 4294967296 := fun x hx => by
    have hb := hg.bounded x hx
    omega
  refine ⟨⟨index, hidx, ?_⟩, hsc2, hsb⟩
  refine ⟨?_, ?_, ?_, ?_, ?_, ?_,
    hg.sorted.sublist (List.eraseIdx_sublist _ _), ?_⟩
  · intro j hj
    rw [deleteBuild_get_header b L index j hj (by rw [hbsz]; omega), hg.header j hj]
  · rw [hsz2, hsc2, hbsz, ht]
    simp only [Nat.add_sub_cancel]
  · rw [hsc2, hel]
    have hle := hg.len_le
    omega
  · rw [hsc2]
    have hc := hg.cap
    omega
  · intro p hp
    rw [deleteBuild_tableVal b L index p (by rw [hel] at hp; omega) hLlen hboundL,
      if_pos hp]
  · intro hlt
    rw [hel] at hlt ⊢
    rw [hsc2] at hlt
    rw [deleteBuild_tableVal b L index (L.length - 1) (by omega) hLlen hboundL,
      if_neg (by omega)]
  · intro x hx
    exact hg.bounded x (List.eraseIdx_subset _ _ hx)


theorem applyOps_cons (b : Buf) (op : LabelsOp) (rest : List LabelsOp) :
    applyOps b (op :: rest) = match applyOp b op with
      | Except.error e => Except.error e
      | Except.ok b1 => applyOps b1 rest := rfl

/-- Every container reachable by successful operations whose intermediate
results stay within the table capacity satisfies the invariant. -/
theorem applyOps_goodTable (ops : List LabelsOp) : ∀ (b : Buf) (L : List Nat) (b2 : Buf),
    GoodTable b L → applyOps b ops = Except.ok b2 →
    (∀ n b3, applyOps b (ops.take n) = Except.ok b3 → slotCount b3 ≤ TABLE_CAPACITY) →
    ∃ L2, GoodTable b2 L2 := by
  induction ops with
  | nil =>
    intro b L b2 hg happ hcap
    refine ⟨L, ?_⟩
    have hbb : b = b2 := Except.ok.inj happ
    rwa [← hbb]
  | cons op rest ih =>
    intro b L b2 hg happ hcap
    rw [applyOps_cons] at happ
    generalize hop : applyOp b op = r at happ
    cases r with
    | error e => simp at happ
    | ok b1 =>
      have hcap1 : slotCount b1 ≤ TABLE_CAPACITY := by
        apply hcap 1 b1
        have e1 : (op :: rest).take 1 = [op] := rfl
        rw [e1, applyOps_cons, hop]
        rfl
      obtain ⟨L1, hg1⟩ : ∃ L1, GoodTable b1 L1 := by
        cases op with
        | add c img =>
          exact ⟨_, (addEntry_goodTable b L c img b1 hg hop hcap1).1⟩
        | del c =>
          obtain ⟨⟨idx, _, hgi⟩, _, _⟩ := deleteEntry_goodTable b L c b1 hg hop
          exact ⟨_, hgi⟩
      apply ih b1 L1 b2 hg1 happ
      intro n b3 h3
      apply hcap (n + 1) b3
      rw [List.take_succ_cons, applyOps_cons, hop]
      exact h3

/-- C1 (amended): for every container reachable from createEmpty by a
finite sequence of successful addEntry and deleteEntry calls all of whose
intermediate results still fit the ID-table region (at most tableCapacity
= 4096 image slots), parsing the resulting buffer yields an entry list
that is strictly ascending by cartId, and every entry's index field
equals its 0-based position in the ID table, its imageOffset the matching
slot position.  (Without the capacity proviso the claim fails: a 4097th
add writes its table entry into the data section, where the slot copy
overwrites it, and the overflowing parse returns an unsorted list; see
the counterexample.) -/
theorem C1_sorted_invariant (ops : List LabelsOp) (b : Buf) (db : LabelsDatabase)
    (happ : applyOps createEmptyLabelsDb ops = Except.ok b)
    (hcap : ∀ n b2, applyOps createEmptyLabelsDb (ops.take n) = Except.ok b2 →
      slotCount b2 ≤ TABLE_CAPACITY)
    (hparse : parseLabelsDb b = Except.ok db) :
    List.Pairwise (fun e1 e2 => e1.cartId < e2.cartId) db.entries ∧
    ∀ i (h : i < db.entries.length), (db.entries.get ⟨i, h⟩).index = i ∧
      (db.entries.get ⟨i, h⟩).imageOffset = DATA_START + i * IMAGE_SLOT_SIZE := by
  obtain ⟨L, hg⟩ := applyOps_goodTable ops createEmptyLabelsDb [] b
    goodTable_createEmpty happ hcap
  have hdb := goodTable_parse_db b L db hg hparse
  subst hdb
  refine ⟨?_, ?_⟩
  · show List.Pairwise (fun e1 e2 => e1.cartId < e2.cartId) (entriesOfTable b L.length)
    apply List.pairwise_iff_getElem.mpr
    intro i j hi hj hij
    have hi2 : i < L.length := by simpa [entriesOfTable] using hi
    have hj2 : j < L.length := by simpa [entriesOfTable] using hj
    simp only [entriesOfTable, List.getElem_map, List.getElem_range, entryOfTable]
    rw [hg.vals i hi2, hg.vals j hj2, getD_eq_getElem_of_lt _ _ hi2,
      getD_eq_getElem_of_lt _ _ hj2]
    exact List.pairwise_iff_getElem.mp hg.sorted i j hi2 hj2 hij
  · show ∀ i (h : i < (entriesOfTable b L.length).length),
      ((entriesOfTable b L.length).get ⟨i, h⟩).index = i ∧
      ((entriesOfTable b L.length).get ⟨i, h⟩).imageOffset =
        DATA_START + i * IMAGE_SLOT_SIZE
    intro i h
    constructor <;> simp [entriesOfTable, entryOfTable]

/-- Witness for C1 at the empty operation sequence on a fresh container. -/
theorem C1_sorted_invariant_witness :
    List.Pairwise (fun e1 e2 => e1.cartId < e2.cartId)
      (LabelsDatabase.entries ⟨0, [], []⟩) ∧
    ∀ i (h : i < (LabelsDatabase.entries ⟨0, [], []⟩).length),
      ((LabelsDatabase.entries ⟨0, [], []⟩).get ⟨i, h⟩).index = i ∧
      ((LabelsDatabase.entries ⟨0, [], []⟩).get ⟨i, h⟩).imageOffset =
        DATA_START + i * IMAGE_SLOT_SIZE :=
  C1_sorted_invariant [] createEmptyLabelsDb ⟨0, [], []⟩ rfl
    (fun n b2 hb => by
      rw [List.take_nil] at hb
      have hb2 : createEmptyLabelsDb = b2 := Except.ok.inj hb
      rw [← hb2, slotCount_createEmpty]
      exact Nat.zero_le _)
    parse_createEmpty


/-! ## Claim C1: the table-overflow counterexample -/

theorem rgbaToBgra_zero_getD (j : Nat) (hj : j < IMAGE_DATA_SIZE) :
    (rgbaToBgra zeroRgba).getD j 0 = 0 := by
  rw [rgbaToBgra]
  rw [swapRB_getD zeroRgba _ 0 j (by simp) (by rw [zeroRgba_length]; decide)
    (by rw [zeroRgba_length]; exact hj) (by omega)]
  rw [zeroRgba, List.getD_eq_getElem?_getD, List.getElem?_replicate]
  split <;> rfl

theorem imageSlotOf_zero_get (j : Nat) (hj : j < 4) :
    (imageSlotOf zeroRgba).get j = 0 := by
  have hcv := constVals
  rw [imageSlotOf_get_data zeroRgba zeroRgba_length j (by omega)]
  exact rgbaToBgra_zero_getD j (by omega)

/-- A full-slot copy at a slot boundary reproduces the slot bytes. -/
theorem copy_slot_get (slot b5 : Buf) (pos j : Nat) (hj : j < IMAGE_SLOT_SIZE)
    (hslot : slot.size = IMAGE_SLOT_SIZE) (hb5 : pos + IMAGE_SLOT_SIZE ≤ b5.size) :
    (Buf.copy slot b5 pos 0 slot.size).get (pos + j) = slot.get j := by
  have hcl : Buf.copyLen slot b5 pos 0 slot.size = IMAGE_SLOT_SIZE := by
    unfold Buf.copyLen
    rw [hslot]
    omega
  have hmem := Buf.get_copy_of_mem slot b5 pos 0 slot.size (pos + j) (by omega)
    (by rw [hcl]; omega)
  have harg : 0 + (pos + j - pos) = j := by omega
  rw [harg] at hmem
  exact hmem

/-- Slot-0 data bytes of an addBuild with insertion index 0 come from the
new image slot. -/
theorem addBuild_get_data0_zero (data : Buf) (L : List Nat) (c : Nat) (slot : Buf)
    (j : Nat) (hj : j < IMAGE_SLOT_SIZE) (hslot : slot.size = IMAGE_SLOT_SIZE)
    (hdata : DATA_START ≤ data.size) :
    (addBuild data L 0 c slot).get (DATA_START + j) = slot.get j := by
  have hcv := constVals
  simp only [addBuild]
  rw [copySlots_get_lt _ _ _ _ _ _ (by omega)]
  exact copy_slot_get slot _ _ j hj hslot
    (by simp [copySlots_size, writeTable_size]; omega)

/-- Slot-0 data bytes of an addBuild with positive insertion index come
from the source's slot 0. -/
theorem addBuild_get_data0_pos (data : Buf) (L : List Nat) (i c : Nat) (slot : Buf)
    (j : Nat) (hj : j < IMAGE_SLOT_SIZE) (hi : 1 ≤ i)
    (hdata : DATA_START + IMAGE_SLOT_SIZE ≤ data.size) :
    (addBuild data L i c slot).get (DATA_START + j) = data.get (DATA_START + j) := by
  have hcv := constVals
  have hm1 : 1 * IMAGE_SLOT_SIZE ≤ (i + 1) * IMAGE_SLOT_SIZE :=
    Nat.mul_le_mul_right _ (by omega)
  have hm2 : 1 * IMAGE_SLOT_SIZE ≤ i * IMAGE_SLOT_SIZE :=
    Nat.mul_le_mul_right _ hi
  simp only [addBuild]
  rw [copySlots_get_lt _ _ _ _ _ _ (by omega),
    Buf.get_copy_of_lt _ _ _ _ _ _ (by omega)]
  exact copySlots_get_first data _ i j hi hj hdata
    (by simp [writeTable_size]; omega)

theorem goodTable_mapHas_false (b : Buf) (L : List Nat) (hg : GoodTable b L) (c : Nat)
    (hc : c ∉ L) : mapHas (mapOfTable b L.length) c = false := by
  by_cases hh : mapHas (mapOfTable b L.length) c = true
  · exfalso
    rw [mapHas_eq_isSome] at hh
    obtain ⟨j, hj, hv⟩ := (mapGet_mapOfTable_isSome b L.length c).mp hh
    apply hc
    rw [← hv, hg.vals j hj, getD_eq_getElem_of_lt _ _ hj]
    exact List.getElem_mem _
  · simpa using hh

/-- The ascending bulk-load operation sequence. -/
def c1ops (k : Nat) : List LabelsOp :=
  (List.range k).map (fun t => LabelsOp.add t zeroRgba)

theorem c1ops_succ (k : Nat) :
    c1ops (k + 1) = c1ops k ++ [LabelsOp.add k zeroRgba] := by
  unfold c1ops
  rw [List.range_succ, List.map_append]
  rfl

theorem applyOps_append (b : Buf) (l1 l2 : List LabelsOp) :
    applyOps b (l1 ++ l2) = match applyOps b l1 with
      | Except.error e => Except.error e
      | Except.ok b1 => applyOps b1 l2 := by
  induction l1 generalizing b with
  | nil => rfl
  | cons op rest ih =>
    rw [List.cons_append, applyOps_cons, applyOps_cons]
    cases applyOp b op with
    | error e => rfl
    | ok b1 => exact ih b1

/-- One bulk-load step below the capacity limit. -/
theorem c1_step (k : Nat) (hk : k ≤ 4095) (b : Buf)
    (hg : GoodTable b (List.range k)) (hsc : slotCount b = k)
    (hz : 1 ≤ k → ∀ j, j < 4 → b.get (DATA_START + j) = 0) :
    ∃ b2, addEntry b k zeroRgba = Except.ok b2 ∧
      GoodTable b2 (List.range (k + 1)) ∧ slotCount b2 = k + 1 ∧
      (∀ j, j < 4 → b2.get (DATA_START + j) = 0) := by
  have hcv := constVals
  have hlenr : (List.range k).length = k := List.length_range k
  have hp := parse_of_goodTable b (List.range k) hg
  have hhas : mapHas (mapOfTable b (List.range k).length) k = false :=
    goodTable_mapHas_false b (List.range k) hg k (by simp)
  have hmapc : (entriesOfTable b (List.range k).length).map LabelEntry.cartId
      = List.range k := entriesOfTable_map_cartId b (List.range k) hg.vals
  have hins : idInsert (List.range k) k 0 = k := by
    rw [idInsert_all_le _ _ (fun x hx => by
      have hxk := List.mem_range.mp hx
      omega)]
    exact hlenr
  have hidx : findInsertIndex (entriesOfTable b (List.range k).length) k 0 = k := by
    rw [findInsertIndex_eq_idInsert, hmapc, hins]
  have hadd := addEntry_eq_ok b ⟨(List.range k).length,
    entriesOfTable b (List.range k).length,
    mapOfTable b (List.range k).length⟩ k zeroRgba hp hhas (by omega) zeroRgba_length
  have hadd2 : addEntry b k zeroRgba = Except.ok (addBuild b
      ((entriesOfTable b (List.range k).length).map LabelEntry.cartId)
      (findInsertIndex (entriesOfTable b (List.range k).length) k 0) k
      (imageSlotOf zeroRgba)) := hadd
  rw [hmapc, hidx] at hadd2
  have hsz2 : (addBuild b (List.range k) k k (imageSlotOf zeroRgba)).size
      = b.size + IMAGE_SLOT_SIZE := addBuild_size _ _ _ _ _
  have hscc : slotCount (addBuild b (List.range k) k k (imageSlotOf zeroRgba)) = k + 1 := by
    apply slotCount_of_size
    rw [hsz2, hg.size_eq, hsc]
    ring
  have hgt := addEntry_goodTable b (List.range k) k zeroRgba _ hg hadd2
    (by rw [hscc]; omega)
  have hkne : k ≠ 4294967295 := by omega
  rw [if_neg hkne, hins] at hgt
  have hsplice : (List.range k).take k ++ k :: (List.range k).drop k
      = List.range (k + 1) := by
    have h1 : (List.range k).take k = List.range k :=
      List.take_of_length_le (by rw [hlenr])
    have h2 : (List.range k).drop k = [] :=
      List.drop_eq_nil_of_le (by rw [hlenr])
    rw [h1, h2, List.range_succ]
  rw [hsplice] at hgt
  refine ⟨_, hadd2, hgt.1, hscc, ?_⟩
  intro j hj
  rcases Nat.eq_zero_or_pos k with hk0 | hk1
  · subst hk0
    rw [addBuild_get_data0_zero _ _ _ _ j (by omega) (imageSlotOf_size zeroRgba)
      (goodTable_size b _ hg)]
    exact imageSlotOf_zero_get j hj
  · rw [addBuild_get_data0_pos _ _ _ _ _ j (by omega) hk1
      (by rw [hg.size_eq, hsc]
          have hm : 1 * IMAGE_SLOT_SIZE ≤ k * IMAGE_SLOT_SIZE :=
            Nat.mul_le_mul_right _ hk1
          omega)]
    exact hz hk1 j hj

/-- The bulk-load invariant up to the table capacity. -/
theorem c1_invariant : ∀ k, k ≤ 4096 →
    ∃ bk, applyOps createEmptyLabelsDb (c1ops k) = Except.ok bk ∧
      GoodTable bk (List.range k) ∧ slotCount bk = k ∧
      (1 ≤ k → ∀ j, j < 4 → bk.get (DATA_START + j) = 0) := by
  intro k
  induction k with
  | zero =>
    intro _
    exact ⟨createEmptyLabelsDb, rfl, goodTable_createEmpty, slotCount_createEmpty,
      fun h => absurd h (by omega)⟩
  | succ k ih =>
    intro hk1
    obtain ⟨bk, happ, hg, hsc, hz⟩ := ih (by omega)
    obtain ⟨b2, hstep, hg2, hsc2, hz2⟩ := c1_step k (by omega) bk hg hsc hz
    refine ⟨b2, ?_, hg2, hsc2, fun _ => hz2⟩
    rw [c1ops_succ, applyOps_append, happ]
    show applyOps bk [LabelsOp.add k zeroRgba] = Except.ok b2
    rw [applyOps_cons]
    show (match addEntry bk k zeroRgba with
      | Except.error e => Except.error e
      | Except.ok b1 => applyOps b1 []) = Except.ok b2
    rw [hstep]
    rfl

theorem range_getD (n j : Nat) (hj : j < n) : (List.range n).getD j 0 = j := by
  rw [getD_eq_getElem_of_lt _ _ (by simpa using hj)]
  simp

/-- In the overflowing addBuild (insertion at position tableCapacity) the
first tableCapacity table slots still read back the old ids. -/
theorem addBuild_tableVal_overflow (data : Buf) (L : List Nat) (c : Nat) (slot : Buf)
    (p : Nat) (hp : p < L.length) (hL : L.length = 4096)
    (hbound : ∀ x ∈ L, x < 4294967296) :
    tableVal (addBuild data L L.length c slot) p = L.getD p 0 := by
  have hcv := constVals
  simp only [addBuild]
  rw [List.take_length, List.drop_length]
  rw [tableVal_copySlots _ _ _ _ _ _ (by omega),
    tableVal_copy_data _ _ _ _ _ _ (by omega) (by omega),
    tableVal_copySlots _ _ _ _ _ _ (by omega),
    writeTable_tableVal_lt _ _ _ _ (by omega),
    tableVal_write32_ne _ _ _ _ (by omega),
    writeTable_tableVal_mem L _ 0 p (Nat.zero_le p) (by omega) hbound,
    Nat.sub_zero]

/-- In the overflowing addBuild the table slot at position tableCapacity
reads back the first four bytes of the source's image slot 0: the written
id was placed at the data-section start and overwritten by the slot copy. -/
theorem addBuild_tableVal_overflow_last (data : Buf) (L : List Nat) (c : Nat)
    (slot : Buf) (hL : L.length = 4096)
    (hdata : DATA_START + IMAGE_SLOT_SIZE ≤ data.size) :
    tableVal (addBuild data L L.length c slot) L.length = data.read32 DATA_START := by
  have hcv := constVals
  simp only [addBuild]
  rw [List.take_length, List.drop_length]
  unfold tableVal
  have hoff : ID_TABLE_START + L.length * 4 = DATA_START := by
    rw [hL]
    omega
  rw [hoff]
  have hm1 : 1 * IMAGE_SLOT_SIZE ≤ (L.length + 1) * IMAGE_SLOT_SIZE :=
    Nat.mul_le_mul_right _ (by omega)
  have hm2 : 1 * IMAGE_SLOT_SIZE ≤ L.length * IMAGE_SLOT_SIZE :=
    Nat.mul_le_mul_right _ (by omega)
  simp only [Buf.read32]
  rw [copySlots_get_lt _ _ _ _ _ _ (by omega),
    copySlots_get_lt _ _ _ _ _ _ (by omega),
    copySlots_get_lt _ _ _ _ _ _ (by omega),
    copySlots_get_lt _ _ _ _ _ _ (by omega),
    Buf.get_copy_of_lt _ _ _ _ _ _ (by omega),
    Buf.get_copy_of_lt _ _ _ _ _ _ (by omega),
    Buf.get_copy_of_lt _ _ _ _ _ _ (by omega),
    Buf.get_copy_of_lt _ _ _ _ _ _ (by omega)]
  have hfirst := copySlots_read32_first data (writeTable ((writeTable
    (Buf.copy data (Buf.alloc (data.size + IMAGE_SLOT_SIZE) PADDING_FILL) 0 0 HEADER_SIZE)
    0 L).write32 DATA_START c) (L.length + 1) []) L.length
    (by omega) hdata (by simp [writeTable_size]; omega)
  simp only [Buf.read32] at hfirst
  exact hfirst

/-- The overflowing add on a full table: addEntry still succeeds, but the
table write lands at the data-section start and is clobbered by the slot
copy, so the next parse returns a non-ascending entry list. -/
theorem c1_overflow_step (k : Nat) (hk : k = 4096) (b : Buf)
    (hg : GoodTable b (List.range k)) (hsc : slotCount b = k)
    (hz : ∀ j, j < 4 → b.get (DATA_START + j) = 0) :
    ∃ b2 db, addEntry b k zeroRgba = Except.ok b2 ∧
      parseLabelsDb b2 = Except.ok db ∧
      ¬ List.Pairwise (fun e1 e2 => e1.cartId < e2.cartId) db.entries := by
  have hcv := constVals
  have hlenr : (List.range k).length = k := List.length_range k
  have hp := parse_of_goodTable b (List.range k) hg
  have hhas : mapHas (mapOfTable b (List.range k).length) k = false :=
    goodTable_mapHas_false b (List.range k) hg k (by simp)
  have hmapc : (entriesOfTable b (List.range k).length).map LabelEntry.cartId
      = List.range k := entriesOfTable_map_cartId b (List.range k) hg.vals
  have hins : idInsert (List.range k) k 0 = k := by
    rw [idInsert_all_le _ _ (fun x hx => by
      have hxk := List.mem_range.mp hx
      omega)]
    exact hlenr
  have hidx : findInsertIndex (entriesOfTable b (List.range k).length) k 0 = k := by
    rw [findInsertIndex_eq_idInsert, hmapc, hins]
  have hadd := addEntry_eq_ok b ⟨(List.range k).length,
    entriesOfTable b (List.range k).length,
    mapOfTable b (List.range k).length⟩ k zeroRgba hp hhas (by omega) zeroRgba_length
  have hadd2 : addEntry b k zeroRgba = Except.ok (addBuild b
      ((entriesOfTable b (List.range k).length).map LabelEntry.cartId)
      (findInsertIndex (entriesOfTable b (List.range k).length) k 0) k
      (imageSlotOf zeroRgba)) := hadd
  rw [hmapc, hidx] at hadd2
  have hlone : k = (List.range k).length := hlenr.symm
  have hLlen : (List.range k).length = 4096 := by rw [hlenr, hk]
  have hbig : DATA_START + IMAGE_SLOT_SIZE ≤ b.size := by
    rw [hg.size_eq, hsc]
    have hm : 1 * IMAGE_SLOT_SIZE ≤ k * IMAGE_SLOT_SIZE :=
      Nat.mul_le_mul_right _ (by omega)
    omega
  have hread0 : b.read32 DATA_START = 0 := by
    unfold Buf.read32
    have h0 := hz 0 (by omega)
    rw [Nat.add_zero] at h0
    rw [h0, hz 1 (by omega), hz 2 (by omega), hz 3 (by omega)]
  set A := addBuild b (List.range k) k k (imageSlotOf zeroRgba) with hA
  have htb : ∀ p, p < k → tableVal A p = p := by
    intro p hpp
    rw [hA]
    nth_rewrite 2 [hlone]
    rw [addBuild_tableVal_overflow b (List.range k) k (imageSlotOf zeroRgba) p
      (by omega) hLlen (fun x hx => by
        have hxk := List.mem_range.mp hx
        omega)]
    exact range_getD _ _ hpp
  have htbk : tableVal A k = 0 := by
    rw [hA]
    nth_rewrite 2 [hlone]
    nth_rewrite 4 [hlone]
    rw [addBuild_tableVal_overflow_last b (List.range k) k (imageSlotOf zeroRgba)
      hLlen hbig]
    exact hread0
  have hszA : A.size = DATA_START + (k + 1) * IMAGE_SLOT_SIZE := by
    rw [hA, addBuild_size, hg.size_eq, hsc]
    ring
  have hscA : slotCount A = k + 1 := slotCount_of_size A (k + 1) hszA
  have hversz : HEADER_SIZE ≤ b.size := by
    rw [hg.size_eq]
    omega
  have hheadA : ∀ j, j < HEADER_SIZE → A.get j = createHeader.get j := by
    intro j hj
    rw [hA, addBuild_get_header _ _ _ _ _ j hj hversz]
    exact hg.header j hj
  have hverA : verifyHeader A = Except.ok () := by
    apply verifyHeader_of_header_eq A ?_ hheadA
    rw [hszA]
    omega
  have hparse : parseLabelsDb A = Except.ok
      ⟨k + 1, entriesOfTable A (k + 1), mapOfTable A (k + 1)⟩ := by
    apply parseLabelsDb_char A (k + 1) hverA (by rw [hszA]; omega) (by rw [hscA])
    · intro j hj
      rcases Nat.lt_or_ge j k with hj2 | hj2
      · rw [htb j hj2]
        omega
      · have hj3 : j = k := by omega
        rw [hj3, htbk]
        omega
    · intro hlt
      rw [hscA] at hlt
      omega
  refine ⟨A, ⟨k + 1, entriesOfTable A (k + 1), mapOfTable A (k + 1)⟩, hadd2, hparse, ?_⟩
  intro hpw
  have hpw2 : List.Pairwise (fun e1 e2 => e1.cartId < e2.cartId)
      (entriesOfTable A (k + 1)) := hpw
  have hlen : (entriesOfTable A (k + 1)).length = k + 1 := by
    simp [entriesOfTable]
  have hrel := List.pairwise_iff_getElem.mp hpw2 (k - 1) k
    (by rw [hlen]; omega) (by rw [hlen]; omega) (by omega)
  simp only [entriesOfTable, List.getElem_map, List.getElem_range,
    entryOfTable] at hrel
  rw [htb (k - 1) (by omega), htbk] at hrel
  omega

/-- The overflowing 4097-step bulk load: every addEntry succeeds, and the
final parse returns an entry list that is not ascending. -/
theorem c1_overflow : ∃ b db,
    applyOps createEmptyLabelsDb (c1ops 4097) = Except.ok b ∧
    parseLabelsDb b = Except.ok db ∧
    ¬ List.Pairwise (fun e1 e2 => e1.cartId < e2.cartId) db.entries := by
  obtain ⟨bk, happ, hg, hsc, hz⟩ := c1_invariant 4096 (by omega)
  obtain ⟨b2, db, hstep, hparse, hns⟩ :=
    c1_overflow_step 4096 rfl bk hg hsc (hz (by omega))
  refine ⟨b2, db, ?_, hparse, hns⟩
  rw [show (4097 : Nat) = 4096 + 1 from rfl, c1ops_succ, applyOps_append, happ]
  show applyOps bk [LabelsOp.add 4096 zeroRgba] = Except.ok b2
  rw [applyOps_cons]
  show (match addEntry bk 4096 zeroRgba with
    | Except.error e => Except.error e
    | Except.ok b1 => applyOps b1 []) = Except.ok b2
  rw [hstep]
  rfl


/-- C1 counterexample: without a capacity proviso the claimed invariant
fails.  Loading ids 0..4096 by 4097 successful addEntry calls from
createEmpty makes the last table write land at the data-section start,
where the image-slot copy overwrites it with image bytes; the subsequent
parse returns 4097 entries whose cartId list ends with 4095 followed by 0
and so is not strictly ascending. -/
theorem C1_sort_invariant_cex :
    ¬ (∀ (ops : List LabelsOp) (b : Buf) (db : LabelsDatabase),
        applyOps createEmptyLabelsDb ops = Except.ok b →
        parseLabelsDb b = Except.ok db →
        List.Pairwise (fun e1 e2 => e1.cartId < e2.cartId) db.entries ∧
        ∀ i (h : i < db.entries.length), (db.entries.get ⟨i, h⟩).index = i ∧
          (db.entries.get ⟨i, h⟩).imageOffset = DATA_START + i * IMAGE_SLOT_SIZE) := by
  intro hall
  obtain ⟨b, db, happ, hparse, hns⟩ := c1_overflow
  exact hns (hall (c1ops 4097) b db happ hparse).1

end A3D
